import Mathlib

/-!
# Verification of the commit aggregation pipeline (`workers/github-commits.js`)

This file gives a shallow embedding, in Lean 4, of the commit
aggregation/grouping pipeline of the repository `core-home-web/project_reports`:
the Cloudflare worker `src/workers/github-commits.js` together with its
multi-tenant variant `src/template/workers/github-commits.js`.

Modelling conventions:

* A JavaScript `Date` value is modelled by its timestamp in milliseconds
  since the Unix epoch (an `Int`).  The worker runs with an UTC local time
  zone, so `getDay`/`getDate`/`setDate` and `toISOString` all act on the UTC
  calendar day `ms / 86400000` (floor division).
* `Date.prototype.toISOString().split('T')[0]` (the source's `formatDate`)
  renders the proleptic Gregorian civil date of that day, zero padded to
  `YYYY-MM-DD`.  We implement the civil-date conversion by an explicit
  400-year-era split followed by a year walk and a month walk; this is the
  standard Gregorian calendar, stated transparently.  The embedding of the
  string rendering matches `toISOString` for years 0..9999 (outside that
  range `toISOString` switches to the expanded `±YYYYYY` form; all theorems
  that depend on the rendering carry an explicit year-range hypothesis).
* Fallible operations (`fetch` pages, the KV store) are modelled with
  `Except`/`Option`; the network is abstracted as a function from page
  index to response.
-/

/-! ## Calendar arithmetic (model of JS `Date` UTC calendar fields) -/

/-- Proleptic Gregorian leap-year rule (as used by JS `Date`). -/
def isLeapYear (y : Nat) : Bool :=
  (y % 4 == 0 && y % 100 != 0) || (y % 400 == 0)

def daysInYear (y : Nat) : Nat := if isLeapYear y then 366 else 365

def daysInMonth (y m : Nat) : Nat :=
  if m = 1 then 31 else if m = 2 then (if isLeapYear y then 29 else 28)
  else if m = 3 then 31 else if m = 4 then 30 else if m = 5 then 31
  else if m = 6 then 30 else if m = 7 then 31 else if m = 8 then 31
  else if m = 9 then 30 else if m = 10 then 31 else if m = 11 then 30
  else 31

/-- Walk whole years starting at year `y`, consuming `n` days; returns the
year reached and the remaining day-of-year offset.  Fuel-based structural
recursion so that the kernel can evaluate it. -/
def yearLoop : Nat → Nat → Nat → Nat × Nat
  | 0, y, n => (y, n)
  | fuel + 1, y, n =>
    if n < daysInYear y then (y, n) else yearLoop fuel (y + 1) (n - daysInYear y)

/-- Walk whole months of year `y` starting at month `m` (1-based), consuming
`n` days; returns the month reached and the remaining day-of-month offset. -/
def monthLoop : Nat → Nat → Nat → Nat → Nat × Nat
  | 0, _, m, n => (m, n)
  | fuel + 1, y, m, n =>
    if n < daysInMonth y m then (m, n)
    else monthLoop fuel y (m + 1) (n - daysInMonth y m)

/-- Year and day-of-year offset of day number `n` (day `0` = 0000-01-01).
The 400-year era (146097 days) is split off arithmetically, then at most
400 years are walked. -/
def yearRem (n : Nat) : Nat × Nat :=
  yearLoop 400 (400 * (n / 146097)) (n % 146097)

/-- Civil date `(year, month, day)` of day number `n`, where day `0` is
0000-01-01 (proleptic Gregorian). -/
def civilOfN (n : Nat) : Nat × Nat × Nat :=
  let yr := yearRem n
  let md := monthLoop 11 yr.1 1 yr.2
  (yr.1, md.1, md.2 + 1)

/-- Day 0 of `civilOfN` (0000-01-01) is 719528 days before 1970-01-01. -/
def epochShift : Nat := 719528

/-- Civil date of a JS day number (days since 1970-01-01, UTC). -/
def civilOfDay (z : Int) : Nat × Nat × Nat := civilOfN (z + epochShift).toNat

/-- UTC calendar day of a JS timestamp in milliseconds (`Date` semantics:
floor division; Lean's `Int` division by a positive constant is floor). -/
def dayNumOfMs (ms : Int) : Int := ms / 86400000

/-- JS `Date.prototype.getDay()` under UTC: 0 = Sunday .. 6 = Saturday.
1970-01-01 (day 0) was a Thursday (= 4).  `%` on `Int` with a positive
modulus yields the representative in `[0, 7)`, matching `getDay`. -/
def jsGetDay (z : Int) : Int := (z + 4) % 7

/-! ### Characterisation of the year/month walks -/

/-- Total days of the `k` consecutive years starting at `y`. -/
def sumDaysFrom (y : Nat) : Nat → Nat
  | 0 => 0
  | k + 1 => daysInYear y + sumDaysFrom (y + 1) k

/-- Total days of the `k` consecutive months of year `y` starting at `m`. -/
def sumMonthsFrom (y m : Nat) : Nat → Nat
  | 0 => 0
  | k + 1 => daysInMonth y m + sumMonthsFrom y (m + 1) k

theorem daysInYear_ge (y : Nat) : 365 ≤ daysInYear y := by
  unfold daysInYear; split <;> omega

theorem daysInMonth_ge (y m : Nat) : 28 ≤ daysInMonth y m := by
  unfold daysInMonth; split <;> [omega; skip]
  split <;> [split <;> omega; skip]
  repeat' split <;> try omega

theorem daysInMonth_le (y m : Nat) : daysInMonth y m ≤ 31 := by
  unfold daysInMonth; split <;> [omega; skip]
  split <;> [split <;> omega; skip]
  repeat' split <;> try omega

theorem sumDaysFrom_succ_right (y k : Nat) :
    sumDaysFrom y (k + 1) = sumDaysFrom y k + daysInYear (y + k) := by
  induction k generalizing y with
  | zero => simp [sumDaysFrom]
  | succ k ih =>
    show daysInYear y + sumDaysFrom (y + 1) (k + 1) = _
    rw [ih]
    show _ = daysInYear y + sumDaysFrom (y + 1) k + daysInYear (y + (k + 1))
    rw [show y + 1 + k = y + (k + 1) by omega]
    omega

theorem sumDaysFrom_mono (y : Nat) {k k' : Nat} (h : k ≤ k') :
    sumDaysFrom y k ≤ sumDaysFrom y k' := by
  induction k' with
  | zero =>
    have hk : k = 0 := by omega
    subst hk; exact Nat.le_refl _
  | succ k' ih =>
    rcases Nat.lt_or_ge k (k' + 1) with h2 | h2
    · calc sumDaysFrom y k ≤ sumDaysFrom y k' := ih (by omega)
        _ ≤ _ := by rw [sumDaysFrom_succ_right]; omega
    · have hk : k = k' + 1 := by omega
      subst hk; exact Nat.le_refl _

theorem sumMonthsFrom_succ_right (y m k : Nat) :
    sumMonthsFrom y m (k + 1) = sumMonthsFrom y m k + daysInMonth y (m + k) := by
  induction k generalizing m with
  | zero => simp [sumMonthsFrom]
  | succ k ih =>
    show daysInMonth y m + sumMonthsFrom y (m + 1) (k + 1) = _
    rw [ih]
    show _ = daysInMonth y m + sumMonthsFrom y (m + 1) k + daysInMonth y (m + (k + 1))
    rw [show m + 1 + k = m + (k + 1) by omega]
    omega

theorem sumMonthsFrom_mono (y m : Nat) {k k' : Nat} (h : k ≤ k') :
    sumMonthsFrom y m k ≤ sumMonthsFrom y m k' := by
  induction k' with
  | zero =>
    have hk : k = 0 := by omega
    subst hk; exact Nat.le_refl _
  | succ k' ih =>
    rcases Nat.lt_or_ge k (k' + 1) with h2 | h2
    · calc sumMonthsFrom y m k ≤ sumMonthsFrom y m k' := ih (by omega)
        _ ≤ _ := by rw [sumMonthsFrom_succ_right]; omega
    · have hk : k = k' + 1 := by omega
      subst hk; exact Nat.le_refl _

theorem yearLoop_spec (fuel : Nat) : ∀ y n, ∃ k,
    k ≤ fuel ∧ yearLoop fuel y n = (y + k, n - sumDaysFrom y k) ∧
    sumDaysFrom y k ≤ n ∧
    (n - sumDaysFrom y k < daysInYear (y + k) ∨ k = fuel) := by
  induction fuel with
  | zero =>
    intro y n
    refine ⟨0, Nat.le_refl _, ?_, by simp [sumDaysFrom], Or.inr rfl⟩
    simp [yearLoop, sumDaysFrom]
  | succ fuel ih =>
    intro y n
    by_cases h : n < daysInYear y
    · refine ⟨0, by omega, ?_, by simp [sumDaysFrom], Or.inl (by simpa [sumDaysFrom])⟩
      simp [yearLoop, h, sumDaysFrom]
    · obtain ⟨k, hk, heq, hle, hstop⟩ := ih (y + 1) (n - daysInYear y)
      have hsum : sumDaysFrom y (k + 1) = daysInYear y + sumDaysFrom (y + 1) k := rfl
      refine ⟨k + 1, by omega, ?_, by omega, ?_⟩
      · rw [show yearLoop (fuel + 1) y n = yearLoop fuel (y + 1) (n - daysInYear y) by
          simp [yearLoop, h]]
        rw [heq]
        simp only [Prod.mk.injEq]
        exact ⟨by omega, by omega⟩
      · rcases hstop with hs | hs
        · left
          have harg : y + 1 + k = y + (k + 1) := by omega
          rw [harg] at hs
          omega
        · right; omega

theorem monthLoop_spec (fuel : Nat) : ∀ y m n, ∃ k,
    k ≤ fuel ∧ monthLoop fuel y m n = (m + k, n - sumMonthsFrom y m k) ∧
    sumMonthsFrom y m k ≤ n ∧
    (n - sumMonthsFrom y m k < daysInMonth y (m + k) ∨ k = fuel) := by
  induction fuel with
  | zero =>
    intro y m n
    refine ⟨0, Nat.le_refl _, ?_, by simp [sumMonthsFrom], Or.inr rfl⟩
    simp [monthLoop, sumMonthsFrom]
  | succ fuel ih =>
    intro y m n
    by_cases h : n < daysInMonth y m
    · refine ⟨0, by omega, ?_, by simp [sumMonthsFrom], Or.inl (by simpa [sumMonthsFrom])⟩
      simp [monthLoop, h, sumMonthsFrom]
    · obtain ⟨k, hk, heq, hle, hstop⟩ := ih y (m + 1) (n - daysInMonth y m)
      have hsum : sumMonthsFrom y m (k + 1) = daysInMonth y m + sumMonthsFrom y (m + 1) k := rfl
      refine ⟨k + 1, by omega, ?_, by omega, ?_⟩
      · rw [show monthLoop (fuel + 1) y m n = monthLoop fuel y (m + 1) (n - daysInMonth y m) by
          simp [monthLoop, h]]
        rw [heq]
        simp only [Prod.mk.injEq]
        exact ⟨by omega, by omega⟩
      · rcases hstop with hs | hs
        · left
          have harg : m + 1 + k = m + (k + 1) := by omega
          rw [harg] at hs
          omega
        · right; omega

theorem isLeapYear_add_400 (y : Nat) : isLeapYear (y + 400) = isLeapYear y := by
  unfold isLeapYear
  have h4 : (y + 400) % 4 = y % 4 := by omega
  have h100 : (y + 400) % 100 = y % 100 := by omega
  have h400 : (y + 400) % 400 = y % 400 := by omega
  rw [h4, h100, h400]

theorem daysInYear_add_400 (y : Nat) : daysInYear (y + 400) = daysInYear y := by
  unfold daysInYear; rw [isLeapYear_add_400]

theorem sumDaysFrom_add_400 (k : Nat) : ∀ y, sumDaysFrom (y + 400) k = sumDaysFrom y k := by
  induction k with
  | zero => intro y; rfl
  | succ k ih =>
    intro y
    show daysInYear (y + 400) + sumDaysFrom (y + 400 + 1) k = daysInYear y + sumDaysFrom (y + 1) k
    rw [daysInYear_add_400, show y + 400 + 1 = (y + 1) + 400 by omega, ih]

set_option maxRecDepth 4000 in
theorem sumDaysFrom_era_zero : sumDaysFrom 0 400 = 146097 := by decide

theorem sumDaysFrom_era (e : Nat) : sumDaysFrom (400 * e) 400 = 146097 := by
  induction e with
  | zero => exact sumDaysFrom_era_zero
  | succ e ih =>
    rw [show 400 * (e + 1) = 400 * e + 400 by omega, sumDaysFrom_add_400]
    exact ih

/-- Inside one 400-year era the year walk stops properly: it finds the year
containing offset `n'` and a day-of-year remainder below that year's length. -/
theorem yearRem_spec (n : Nat) : ∃ k < 400,
    yearRem n = (400 * (n / 146097) + k, n % 146097 - sumDaysFrom (400 * (n / 146097)) k) ∧
    sumDaysFrom (400 * (n / 146097)) k ≤ n % 146097 ∧
    n % 146097 - sumDaysFrom (400 * (n / 146097)) k < daysInYear (400 * (n / 146097) + k) := by
  obtain ⟨k, hk, heq, hle, hstop⟩ := yearLoop_spec 400 (400 * (n / 146097)) (n % 146097)
  have hlt : k < 400 := by
    rcases Nat.lt_or_ge k 400 with h | h
    · exact h
    · exfalso
      have hk4 : k = 400 := by omega
      subst hk4
      have := sumDaysFrom_era (n / 146097)
      have hmod : n % 146097 < 146097 := Nat.mod_lt _ (by omega)
      omega
  refine ⟨k, hlt, heq, hle, ?_⟩
  rcases hstop with h | h
  · exact h
  · omega

/-- Monotonicity of the year walk: a later day number yields a
lexicographically later `(year, day-of-year)` pair. -/
theorem yearRem_mono {n₁ n₂ : Nat} (h : n₁ ≤ n₂) :
    (yearRem n₁).1 < (yearRem n₂).1 ∨
    ((yearRem n₁).1 = (yearRem n₂).1 ∧ (yearRem n₁).2 ≤ (yearRem n₂).2) := by
  obtain ⟨k₁, hk₁, heq₁, hle₁, hstop₁⟩ := yearRem_spec n₁
  obtain ⟨k₂, hk₂, heq₂, hle₂, hstop₂⟩ := yearRem_spec n₂
  have hediv : n₁ / 146097 ≤ n₂ / 146097 := Nat.div_le_div_right h
  rcases Nat.lt_or_ge (n₁ / 146097) (n₂ / 146097) with he | he
  · left
    rw [heq₁, heq₂]
    show 400 * (n₁ / 146097) + k₁ < 400 * (n₂ / 146097) + k₂
    omega
  · have hdiveq : n₁ / 146097 = n₂ / 146097 := by omega
    have hmod : n₁ % 146097 ≤ n₂ % 146097 := by omega
    rw [← hdiveq] at heq₂ hle₂ hstop₂
    rcases Nat.lt_trichotomy k₁ k₂ with hkk | hkk | hkk
    · left
      rw [heq₁, heq₂]
      show 400 * (n₁ / 146097) + k₁ < 400 * (n₁ / 146097) + k₂
      omega
    · right
      rw [heq₁, heq₂, hkk]
      exact ⟨rfl, by omega⟩
    · -- k₂ < k₁ is impossible
      exfalso
      have h1 : sumDaysFrom (400 * (n₁ / 146097)) (k₂ + 1) =
          sumDaysFrom (400 * (n₁ / 146097)) k₂ + daysInYear (400 * (n₁ / 146097) + k₂) :=
        sumDaysFrom_succ_right (400 * (n₁ / 146097)) k₂
      have h2 : sumDaysFrom (400 * (n₁ / 146097)) (k₂ + 1) ≤
          sumDaysFrom (400 * (n₁ / 146097)) k₁ :=
        sumDaysFrom_mono (400 * (n₁ / 146097)) (by omega)
      omega

/-- The 12 months of a year have exactly `daysInYear` days in total. -/
theorem sumMonthsFrom_year (y : Nat) : sumMonthsFrom y 1 12 = daysInYear y := by
  cases h : isLeapYear y <;>
    simp [sumMonthsFrom, daysInMonth, daysInYear, h]

/-- The month walk of a valid day-of-year offset lands on a month 1..12 with
a day-of-month remainder below that month's length. -/
theorem monthLoop_valid (y n : Nat) (h : n < daysInYear y) : ∃ k ≤ 11,
    monthLoop 11 y 1 n = (1 + k, n - sumMonthsFrom y 1 k) ∧
    sumMonthsFrom y 1 k ≤ n ∧
    n - sumMonthsFrom y 1 k < daysInMonth y (1 + k) := by
  obtain ⟨k, hk, heq, hle, hstop⟩ := monthLoop_spec 11 y 1 n
  refine ⟨k, hk, heq, hle, ?_⟩
  rcases hstop with hs | hs
  · exact hs
  · subst hs
    have hnum : (1 : Nat) + 11 = 12 := by norm_num
    rw [hnum]
    have h12 : sumMonthsFrom y 1 (11 + 1) = sumMonthsFrom y 1 11 + daysInMonth y (1 + 11) :=
      sumMonthsFrom_succ_right y 1 11
    rw [hnum] at h12
    have hy12 : sumMonthsFrom y 1 12 = daysInYear y := sumMonthsFrom_year y
    have hpos := daysInMonth_ge y 12
    omega

/-- Monotonicity of the month walk within one year. -/
theorem monthLoop_mono {y n₁ n₂ : Nat} (h : n₁ ≤ n₂) (h₂ : n₂ < daysInYear y) :
    (monthLoop 11 y 1 n₁).1 < (monthLoop 11 y 1 n₂).1 ∨
    ((monthLoop 11 y 1 n₁).1 = (monthLoop 11 y 1 n₂).1 ∧
      (monthLoop 11 y 1 n₁).2 ≤ (monthLoop 11 y 1 n₂).2) := by
  obtain ⟨k₁, hk₁, heq₁, hle₁, hstop₁⟩ := monthLoop_valid y n₁ (by omega)
  obtain ⟨k₂, hk₂, heq₂, hle₂, hstop₂⟩ := monthLoop_valid y n₂ h₂
  rcases Nat.lt_trichotomy k₁ k₂ with hkk | hkk | hkk
  · left; rw [heq₁, heq₂]; omega
  · right
    rw [heq₁, heq₂, hkk]
    exact ⟨rfl, by omega⟩
  · exfalso
    have h1 : sumMonthsFrom y 1 (k₂ + 1) = sumMonthsFrom y 1 k₂ + daysInMonth y (1 + k₂) :=
      sumMonthsFrom_succ_right y 1 k₂
    have h2 : sumMonthsFrom y 1 (k₂ + 1) ≤ sumMonthsFrom y 1 k₁ := sumMonthsFrom_mono y 1 (by omega)
    omega

/-- Lexicographic order on civil dates. -/
def CivilLe (a b : Nat × Nat × Nat) : Prop :=
  a.1 < b.1 ∨ (a.1 = b.1 ∧ (a.2.1 < b.2.1 ∨ (a.2.1 = b.2.1 ∧ a.2.2 ≤ b.2.2)))

/-- The civil date of any day number has a month in 1..12 and a day in 1..31. -/
theorem civilOfN_valid (n : Nat) :
    1 ≤ (civilOfN n).2.1 ∧ (civilOfN n).2.1 ≤ 12 ∧
    1 ≤ (civilOfN n).2.2 ∧ (civilOfN n).2.2 ≤ 31 := by
  obtain ⟨k, hk, heq, hle, hlt⟩ := yearRem_spec n
  obtain ⟨j, hj, heqm, hlem, hltm⟩ := monthLoop_valid (yearRem n).1
    (yearRem n).2 (by rw [heq]; simpa [heq] using hlt)
  have hdm := daysInMonth_le (yearRem n).1 (1 + j)
  show 1 ≤ (monthLoop 11 (yearRem n).1 1 (yearRem n).2).1 ∧
      (monthLoop 11 (yearRem n).1 1 (yearRem n).2).1 ≤ 12 ∧
      1 ≤ (monthLoop 11 (yearRem n).1 1 (yearRem n).2).2 + 1 ∧
      (monthLoop 11 (yearRem n).1 1 (yearRem n).2).2 + 1 ≤ 31
  rw [heqm]
  refine ⟨by omega, by omega, by omega, by omega⟩

/-- Monotonicity: the civil date function is monotone from day numbers to
lexicographically ordered `(y, m, d)` triples. -/
theorem civilOfN_mono {n₁ n₂ : Nat} (h : n₁ ≤ n₂) :
    CivilLe (civilOfN n₁) (civilOfN n₂) := by
  obtain ⟨k₁, hk₁, heq₁, hle₁, hstop₁⟩ := yearRem_spec n₁
  obtain ⟨k₂, hk₂, heq₂, hle₂, hstop₂⟩ := yearRem_spec n₂
  rcases yearRem_mono h with hy | ⟨hy, hr⟩
  · left
    exact hy
  · right
    refine ⟨hy, ?_⟩
    have hlt₂ : (yearRem n₂).2 < daysInYear (yearRem n₂).1 := by
      rw [heq₂]; simpa [heq₂] using hstop₂
    have hmm := @monthLoop_mono (yearRem n₂).1 (yearRem n₁).2 (yearRem n₂).2 hr hlt₂
    show (monthLoop 11 (yearRem n₁).1 1 (yearRem n₁).2).1 <
        (monthLoop 11 (yearRem n₂).1 1 (yearRem n₂).2).1 ∨
      ((monthLoop 11 (yearRem n₁).1 1 (yearRem n₁).2).1 =
        (monthLoop 11 (yearRem n₂).1 1 (yearRem n₂).2).1 ∧
       (monthLoop 11 (yearRem n₁).1 1 (yearRem n₁).2).2 + 1 ≤
        (monthLoop 11 (yearRem n₂).1 1 (yearRem n₂).2).2 + 1)
    rw [hy]
    rcases hmm with hm | ⟨hm, hd⟩
    · left; exact hm
    · right; exact ⟨hm, by omega⟩

/-- Monotonicity transported to JS day numbers. -/
theorem civilOfDay_mono {z₁ z₂ : Int} (h : z₁ ≤ z₂) :
    CivilLe (civilOfDay z₁) (civilOfDay z₂) := by
  unfold civilOfDay
  exact civilOfN_mono (by omega)

/-- Validity transported to JS day numbers. -/
theorem civilOfDay_valid (z : Int) :
    1 ≤ (civilOfDay z).2.1 ∧ (civilOfDay z).2.1 ≤ 12 ∧
    1 ≤ (civilOfDay z).2.2 ∧ (civilOfDay z).2.2 ≤ 31 :=
  civilOfN_valid _

/-! ## Decimal rendering (model of `toISOString` fields and JS `String(n)`) -/

/-- The ASCII digit character for `k` (0..9). -/
def dChar (k : Nat) : Char := Char.ofNat (48 + k)

/-- Four-digit zero-padded decimal rendering (`toISOString` year field,
valid for years 0..9999). -/
def pad4 (n : Nat) : List Char :=
  [dChar (n / 1000 % 10), dChar (n / 100 % 10), dChar (n / 10 % 10), dChar (n % 10)]

/-- Two-digit zero-padded decimal rendering (`toISOString` month/day
fields, valid for 0..99). -/
def pad2 (n : Nat) : List Char := [dChar (n / 10 % 10), dChar (n % 10)]

/-- Decimal digits of `n` (most significant first), fuel-based so the
kernel can evaluate it. -/
def decChars : Nat → Nat → List Char
  | 0, _ => []
  | fuel + 1, n => if n < 10 then [dChar n] else decChars fuel (n / 10) ++ [dChar (n % 10)]

/-- JS `String(n)` for a natural number: its decimal representation. -/
def natStr (n : Nat) : List Char := decChars (n + 1) n

/-- JS `String(n).padStart(2, '0')`. -/
def padStart2 (n : Nat) : List Char :=
  List.replicate (2 - (natStr n).length) (dChar 0) ++ natStr n

theorem decChars_small {f n : Nat} (hf : 1 ≤ f) (h : n < 10) :
    decChars f n = [dChar n] := by
  cases f with
  | zero => omega
  | succ f => simp [decChars, h]

theorem decChars_big {f n : Nat} (hf : 1 ≤ f) (h : 10 ≤ n) :
    decChars f n = decChars (f - 1) (n / 10) ++ [dChar (n % 10)] := by
  cases f with
  | zero => omega
  | succ f =>
    have hn : ¬ n < 10 := by omega
    simp [decChars, hn]

/-- For a four-digit number, `String(n)` coincides with the zero-padded
four-digit rendering. -/
theorem natStr_pad4 {y : Nat} (h1 : 1000 ≤ y) (h2 : y ≤ 9999) : natStr y = pad4 y := by
  unfold natStr
  rw [decChars_big (by omega) (by omega)]
  rw [decChars_big (by omega) (by omega)]
  rw [Nat.div_div_eq_div_mul]
  norm_num
  rw [decChars_big (by omega) (by omega)]
  rw [Nat.div_div_eq_div_mul]
  norm_num
  rw [decChars_small (by omega) (by omega)]
  unfold pad4
  have h1000 : y / 1000 % 10 = y / 1000 := by omega
  have h100 : y / 100 % 10 = y / 100 % 10 := rfl
  rw [h1000]
  simp

theorem dChar_lt_iff {a b : Nat} (ha : a ≤ 9) (hb : b ≤ 9) : dChar a < dChar b ↔ a < b := by
  interval_cases a <;> interval_cases b <;> decide

/-- Appending after a common prefix preserves lexicographic order. -/
theorem lex_append_same {l t₁ t₂ : List Char} (h : List.Lex (· < ·) t₁ t₂) :
    List.Lex (· < ·) (l ++ t₁) (l ++ t₂) := by
  induction l with
  | nil => simpa
  | cons c l ih => exact List.Lex.cons ih

/-- Zero-padded four-digit blocks compare lexicographically like their
values (whatever follows them). -/
theorem lex_pad4_lt {y₁ y₂ : Nat} (t₁ t₂ : List Char) (hlt : y₁ < y₂) (hb : y₂ ≤ 9999) :
    List.Lex (· < ·) (pad4 y₁ ++ t₁) (pad4 y₂ ++ t₂) := by
  unfold pad4
  simp only [List.cons_append, List.nil_append]
  rcases Nat.lt_trichotomy (y₁ / 1000 % 10) (y₂ / 1000 % 10) with h3 | h3 | h3
  · exact List.Lex.rel ((dChar_lt_iff (by omega) (by omega)).mpr h3)
  · rw [h3]
    apply List.Lex.cons
    rcases Nat.lt_trichotomy (y₁ / 100 % 10) (y₂ / 100 % 10) with h2 | h2 | h2
    · exact List.Lex.rel ((dChar_lt_iff (by omega) (by omega)).mpr h2)
    · rw [h2]
      apply List.Lex.cons
      rcases Nat.lt_trichotomy (y₁ / 10 % 10) (y₂ / 10 % 10) with hh | hh | hh
      · exact List.Lex.rel ((dChar_lt_iff (by omega) (by omega)).mpr hh)
      · rw [hh]
        apply List.Lex.cons
        rcases Nat.lt_trichotomy (y₁ % 10) (y₂ % 10) with h0 | h0 | h0
        · exact List.Lex.rel ((dChar_lt_iff (by omega) (by omega)).mpr h0)
        · omega
        · omega
      · omega
    · omega
  · omega

/-- Zero-padded two-digit blocks compare lexicographically like their
values (whatever follows them). -/
theorem lex_pad2_lt {m₁ m₂ : Nat} (t₁ t₂ : List Char) (hlt : m₁ < m₂) (hb : m₂ ≤ 99) :
    List.Lex (· < ·) (pad2 m₁ ++ t₁) (pad2 m₂ ++ t₂) := by
  unfold pad2
  simp only [List.cons_append, List.nil_append]
  rcases Nat.lt_trichotomy (m₁ / 10 % 10) (m₂ / 10 % 10) with h1 | h1 | h1
  · exact List.Lex.rel ((dChar_lt_iff (by omega) (by omega)).mpr h1)
  · rw [h1]
    apply List.Lex.cons
    rcases Nat.lt_trichotomy (m₁ % 10) (m₂ % 10) with h0 | h0 | h0
    · exact List.Lex.rel ((dChar_lt_iff (by omega) (by omega)).mpr h0)
    · omega
    · omega
  · omega

/-- For `n ≤ 99`, `String(n).padStart(2,'0')` coincides with the
zero-padded two-digit rendering. -/
theorem padStart2_pad2 {n : Nat} (h : n ≤ 99) : padStart2 n = pad2 n := by
  unfold padStart2
  by_cases h10 : n < 10
  · rw [show natStr n = [dChar n] from decChars_small (by omega) h10]
    unfold pad2
    have hd : n / 10 % 10 = 0 := by omega
    have hm : n % 10 = n := by omega
    rw [hd, hm]
    simp [List.replicate]
  · rw [show natStr n = decChars n (n / 10) ++ [dChar (n % 10)] from
      decChars_big (by omega) (by omega)]
    rw [decChars_small (by omega) (by omega)]
    unfold pad2
    have hd : n / 10 % 10 = n / 10 := by omega
    rw [hd]
    simp

/-! ## Bucket key rendering -/

/-- Strict lexicographic order on civil dates. -/
def CivilLt (a b : Nat × Nat × Nat) : Prop :=
  a.1 < b.1 ∨ (a.1 = b.1 ∧ (a.2.1 < b.2.1 ∨ (a.2.1 = b.2.1 ∧ a.2.2 < b.2.2)))

/-- `YYYY-MM-DD` (the date part of `toISOString`, years 0..9999). -/
def dateKeyChars (c : Nat × Nat × Nat) : List Char :=
  pad4 c.1 ++ '-' :: (pad2 c.2.1 ++ '-' :: pad2 c.2.2)

/-- The month group id `` `${year}-${String(month).padStart(2,'0')}` ``. -/
def monthKeyChars (c : Nat × Nat × Nat) : List Char :=
  natStr c.1 ++ '-' :: padStart2 c.2.1

/-- The year group id `String(year)`. -/
def yearKeyChars (c : Nat × Nat × Nat) : List Char := natStr c.1

theorem dateKey_lt {c₁ c₂ : Nat × Nat × Nat}
    (h9₂ : c₂.1 ≤ 9999) (hm₂ : c₂.2.1 ≤ 99) (hd₂ : c₂.2.2 ≤ 99)
    (h : CivilLt c₁ c₂) :
    List.Lex (· < ·) (dateKeyChars c₁) (dateKeyChars c₂) := by
  obtain ⟨y₁, m₁, d₁⟩ := c₁
  obtain ⟨y₂, m₂, d₂⟩ := c₂
  simp only [CivilLt] at h
  simp only [dateKeyChars] at *
  rcases h with hy | ⟨hy, hm | ⟨hm, hd⟩⟩
  · exact lex_pad4_lt _ _ hy h9₂
  · subst hy
    apply lex_append_same
    apply List.Lex.cons
    exact lex_pad2_lt _ _ hm hm₂
  · subst hy; subst hm
    apply lex_append_same
    apply List.Lex.cons
    apply lex_append_same
    apply List.Lex.cons
    have := @lex_pad2_lt d₁ d₂ [] [] hd hd₂
    simpa using this

theorem monthKey_lt {c₁ c₂ : Nat × Nat × Nat}
    (hy₁ : 1000 ≤ c₁.1) (hy₁9 : c₁.1 ≤ 9999) (hy₂ : 1000 ≤ c₂.1) (hy₂9 : c₂.1 ≤ 9999)
    (hm₁ : c₁.2.1 ≤ 99) (hm₂ : c₂.2.1 ≤ 99)
    (h : c₁.1 < c₂.1 ∨ (c₁.1 = c₂.1 ∧ c₁.2.1 < c₂.2.1)) :
    List.Lex (· < ·) (monthKeyChars c₁) (monthKeyChars c₂) := by
  obtain ⟨y₁, m₁, d₁⟩ := c₁
  obtain ⟨y₂, m₂, d₂⟩ := c₂
  simp only at h hy₁ hy₁9 hy₂ hy₂9 hm₁ hm₂
  simp only [monthKeyChars]
  rw [natStr_pad4 hy₁ hy₁9, natStr_pad4 hy₂ hy₂9, padStart2_pad2 hm₁, padStart2_pad2 hm₂]
  rcases h with hy | ⟨hy, hm⟩
  · exact lex_pad4_lt _ _ hy hy₂9
  · subst hy
    apply lex_append_same
    apply List.Lex.cons
    have := @lex_pad2_lt m₁ m₂ [] [] hm hm₂
    simpa using this

theorem yearKey_lt {c₁ c₂ : Nat × Nat × Nat}
    (hy₁ : 1000 ≤ c₁.1) (hy₁9 : c₁.1 ≤ 9999) (hy₂ : 1000 ≤ c₂.1) (hy₂9 : c₂.1 ≤ 9999)
    (h : c₁.1 < c₂.1) :
    List.Lex (· < ·) (yearKeyChars c₁) (yearKeyChars c₂) := by
  simp only [yearKeyChars]
  rw [natStr_pad4 hy₁ hy₁9, natStr_pad4 hy₂ hy₂9]
  have := @lex_pad4_lt c₁.1 c₂.1 [] [] h hy₂9
  simpa using this

/-- Lexicographic order on char lists is string order. -/
theorem mkStr_lt_of_lex {l₁ l₂ : List Char} (h : List.Lex (· < ·) l₁ l₂) :
    String.mk l₁ < String.mk l₂ := by
  rw [String.lt_iff_toList_lt]
  exact h

/-! ## Source date helpers (`getWeekStart`, `formatDate`, group ids) -/

/-- `getWeekStart` (`github-commits.js` lines 139-144), reduced to day
numbers.  The source computes `diff = d.getDate() - day + (day === 0 ? -6 : 1)`
with `day = d.getDay()` and then `d.setDate(diff)`; `setDate(x)` shifts the
date by `x - getDate()` whole days and preserves the time of day, so the UTC
day of the result is `z - day + (day === 0 ? -6 : 1)`. -/
def getWeekStart (z : Int) : Int :=
  z - jsGetDay z + (if jsGetDay z = 0 then -6 else 1)

/-- `formatDate` (lines 151-153) of a whole day: `toISOString().split('T')[0]`. -/
def formatDay (z : Int) : String := ⟨dateKeyChars (civilOfDay z)⟩

/-- `formatDate` applied to a millisecond timestamp. -/
def formatDate (ms : Int) : String := formatDay (dayNumOfMs ms)

/-- `getWeekId` (lines 160-163): the formatted Monday of the timestamp's week. -/
def getWeekId (ms : Int) : String := formatDay (getWeekStart (dayNumOfMs ms))

/-- Day-group id (line 197): `formatDate(commitDate)`. -/
def getDayId (ms : Int) : String := formatDate ms

/-- Month-group id (line 219): `` `${y.getFullYear()}-${String(m+1).padStart(2,'0')}` ``. -/
def getMonthId (ms : Int) : String := ⟨monthKeyChars (civilOfDay (dayNumOfMs ms))⟩

/-- Year-group id (line 241): `String(getFullYear())`. -/
def getYearId (ms : Int) : String := ⟨yearKeyChars (civilOfDay (dayNumOfMs ms))⟩

theorem jsGetDay_range (z : Int) : 0 ≤ jsGetDay z ∧ jsGetDay z < 7 := by
  unfold jsGetDay; omega

/-- The week start always falls on a Monday (`getDay = 1`). -/
theorem getWeekStart_monday (z : Int) : jsGetDay (getWeekStart z) = 1 := by
  unfold getWeekStart jsGetDay
  split <;> omega

/-- The week start lies at most 6 days before its argument. -/
theorem getWeekStart_near (z : Int) : getWeekStart z ≤ z ∧ z < getWeekStart z + 7 := by
  unfold getWeekStart jsGetDay
  split <;> omega

/-- On a Sunday the week start is the Monday six days earlier. -/
theorem getWeekStart_sunday {z : Int} (h : jsGetDay z = 0) : getWeekStart z = z - 6 := by
  unfold getWeekStart
  rw [if_pos h, h]
  omega

/-- On any other weekday the week start is the Monday of the same week
(`getDay - 1` days earlier). -/
theorem getWeekStart_weekday {z : Int} (h : jsGetDay z ≠ 0) :
    getWeekStart z = z - (jsGetDay z - 1) := by
  unfold getWeekStart
  rw [if_neg h]
  omega

theorem getWeekStart_mono {z₁ z₂ : Int} (h : z₁ ≤ z₂) :
    getWeekStart z₁ ≤ getWeekStart z₂ := by
  unfold getWeekStart jsGetDay
  split <;> split <;> omega

/-- Day number of 1000-01-01. -/
def loDay : Int := -354285

/-- Day number of 9999-12-31. -/
def hiDay : Int := 2932896

set_option maxRecDepth 8000 in
theorem civilOfDay_lo : civilOfDay loDay = (1000, 1, 1) := by decide

set_option maxRecDepth 8000 in
theorem civilOfDay_hi : civilOfDay hiDay = (9999, 12, 31) := by decide

/-- Day numbers between `loDay` and `hiDay` have years 1000..9999. -/
theorem civilOfDay_year_range {z : Int} (h1 : loDay ≤ z) (h2 : z ≤ hiDay) :
    1000 ≤ (civilOfDay z).1 ∧ (civilOfDay z).1 ≤ 9999 := by
  have hlo := civilOfDay_mono h1
  have hhi := civilOfDay_mono h2
  rw [civilOfDay_lo] at hlo
  rw [civilOfDay_hi] at hhi
  simp only [CivilLe] at hlo hhi
  constructor
  · rcases hlo with h | ⟨h, _⟩ <;> omega
  · rcases hhi with h | ⟨h, _⟩ <;> omega

/-- `CivilLe` splits into strict order or equality. -/
theorem CivilLe_cases {a b : Nat × Nat × Nat} (h : CivilLe a b) : CivilLt a b ∨ a = b := by
  obtain ⟨y₁, m₁, d₁⟩ := a
  obtain ⟨y₂, m₂, d₂⟩ := b
  simp only [CivilLe] at h
  rcases h with h | ⟨hy, h | ⟨hm, hd⟩⟩
  · exact Or.inl (Or.inl h)
  · exact Or.inl (Or.inr ⟨hy, Or.inl h⟩)
  · rcases Nat.lt_or_ge d₁ d₂ with hdd | hdd
    · exact Or.inl (Or.inr ⟨hy, Or.inr ⟨hm, hdd⟩⟩)
    · right
      have hde : d₁ = d₂ := by omega
      rw [hy, hm, hde]

/-- `formatDate` is monotone on day numbers in the supported range. -/
theorem formatDay_le {z₁ z₂ : Int} (h : z₁ ≤ z₂) (hlo : loDay ≤ z₁) (hhi : z₂ ≤ hiDay) :
    formatDay z₁ ≤ formatDay z₂ := by
  have hv₂ := civilOfDay_valid z₂
  have hy₂ := civilOfDay_year_range (z := z₂) (by omega) hhi
  rcases CivilLe_cases (civilOfDay_mono h) with hlt | heq
  · exact le_of_lt (mkStr_lt_of_lex (dateKey_lt (by omega) (by omega) (by omega) hlt))
  · unfold formatDay
    rw [heq]

/-- The month-group id is monotone on day numbers in the supported range. -/
theorem getMonthKey_le {z₁ z₂ : Int} (h : z₁ ≤ z₂) (hlo : loDay ≤ z₁) (hhi : z₂ ≤ hiDay) :
    (⟨monthKeyChars (civilOfDay z₁)⟩ : String) ≤ ⟨monthKeyChars (civilOfDay z₂)⟩ := by
  have hv₁ := civilOfDay_valid z₁
  have hv₂ := civilOfDay_valid z₂
  have hy₁ := civilOfDay_year_range (z := z₁) hlo (by omega)
  have hy₂ := civilOfDay_year_range (z := z₂) (by omega) hhi
  rcases CivilLe_cases (civilOfDay_mono h) with hlt | heq
  · rcases hlt with hy | ⟨hy, hm | ⟨hm, _⟩⟩
    · exact le_of_lt (mkStr_lt_of_lex (monthKey_lt (by omega) (by omega) (by omega)
        (by omega) (by omega) (by omega) (Or.inl hy)))
    · exact le_of_lt (mkStr_lt_of_lex (monthKey_lt (by omega) (by omega) (by omega)
        (by omega) (by omega) (by omega) (Or.inr ⟨hy, hm⟩)))
    · have : monthKeyChars (civilOfDay z₁) = monthKeyChars (civilOfDay z₂) := by
        unfold monthKeyChars
        rw [hy, hm]
      rw [this]
  · rw [heq]

/-- The year-group id is monotone on day numbers in the supported range. -/
theorem getYearKey_le {z₁ z₂ : Int} (h : z₁ ≤ z₂) (hlo : loDay ≤ z₁) (hhi : z₂ ≤ hiDay) :
    (⟨yearKeyChars (civilOfDay z₁)⟩ : String) ≤ ⟨yearKeyChars (civilOfDay z₂)⟩ := by
  have hy₁ := civilOfDay_year_range (z := z₁) hlo (by omega)
  have hy₂ := civilOfDay_year_range (z := z₂) (by omega) hhi
  rcases CivilLe_cases (civilOfDay_mono h) with hlt | heq
  · rcases hlt with hy | ⟨hy, _⟩
    · exact le_of_lt (mkStr_lt_of_lex (yearKey_lt (by omega) (by omega) (by omega)
        (by omega) hy))
    · have : yearKeyChars (civilOfDay z₁) = yearKeyChars (civilOfDay z₂) := by
        unfold yearKeyChars
        rw [hy]
      rw [this]
  · rw [heq]

/-! ## Commits (data model) and `formatCommit` -/

/-- A commit as delivered by the upstream API (the fields the pipeline
reads: `sha`, `commit.message`, `commit.author.{name,email,date}`,
`html_url`).  `date` is the parsed `commit.author.date` timestamp in
milliseconds UTC. -/
structure GhCommit where
  sha : String
  message : String
  authorName : String
  authorEmail : String
  date : Int
  url : String
deriving DecidableEq

/-- A commit after the per-repo annotation `{...commit, repo, org}`
(source lines 88-92). -/
structure RawCommit where
  sha : String
  message : String
  authorName : String
  authorEmail : String
  date : Int
  url : String
  repo : String
  org : String
deriving DecidableEq

/-- `commitsWithRepo = commits.map(c => ({...c, repo, org}))`. -/
def withRepo (org repo : String) (c : GhCommit) : RawCommit :=
  { sha := c.sha, message := c.message, authorName := c.authorName
    authorEmail := c.authorEmail, date := c.date, url := c.url
    repo := repo, org := org }

/-- The API-response shape of a commit (source `formatCommit`, lines 287-300). -/
structure FormattedCommit where
  sha : String
  shortSha : String
  message : String
  messageFirstLine : String
  author : String
  authorEmail : String
  date : Int
  repo : String
  org : String
  url : String
deriving DecidableEq

/-- `message.split('\n')[0]`. -/
def firstLine (s : String) : String := s.takeWhile (· ≠ '\n')

/-- `formatCommit` (source lines 287-300). -/
def formatCommit (c : RawCommit) : FormattedCommit :=
  { sha := c.sha, shortSha := c.sha.take 7, message := c.message
    messageFirstLine := firstLine c.message, author := c.authorName
    authorEmail := c.authorEmail, date := c.date, repo := c.repo
    org := c.org, url := c.url }

/-! ## Grouping (`groupCommitsByDay/Week/Month/Year`, lines 170-251)

Each of the four source functions runs the same `forEach` loop over the
commits, pushing each commit onto `groups[id]` (creating `groups[id] = []`
on first use).  A JS object used this way is an association list keyed by
the id, with new keys appended in insertion order; `insertGrouped` is one
step of that loop. -/

def insertGrouped : List (String × List RawCommit) → String → RawCommit →
    List (String × List RawCommit)
  | [], k, c => [(k, [c])]
  | (k', l) :: rest, k, c =>
    if k' = k then (k', l ++ [c]) :: rest else (k', l) :: insertGrouped rest k c

/-- The shared `forEach` grouping loop, parametrised by the id function. -/
def groupByKey (key : RawCommit → String) (cs : List RawCommit) :
    List (String × List RawCommit) :=
  cs.foldl (fun gs c => insertGrouped gs (key c) c) []

/-- `groupCommitsByDay` (lines 192-207). -/
def groupCommitsByDay (cs : List RawCommit) : List (String × List RawCommit) :=
  groupByKey (fun c => getDayId c.date) cs

/-- `groupCommitsByWeek` (lines 170-185). -/
def groupCommitsByWeek (cs : List RawCommit) : List (String × List RawCommit) :=
  groupByKey (fun c => getWeekId c.date) cs

/-- `groupCommitsByMonth` (lines 214-229). -/
def groupCommitsByMonth (cs : List RawCommit) : List (String × List RawCommit) :=
  groupByKey (fun c => getMonthId c.date) cs

/-- `groupCommitsByYear` (lines 236-251). -/
def groupCommitsByYear (cs : List RawCommit) : List (String × List RawCommit) :=
  groupByKey (fun c => getYearId c.date) cs

/-! ### Well-formedness of the grouping loop -/

theorem insertGrouped_keys_mem {gs : List (String × List RawCommit)} {k : String}
    (c : RawCommit) (h : k ∈ gs.map Prod.fst) :
    (insertGrouped gs k c).map Prod.fst = gs.map Prod.fst := by
  induction gs with
  | nil => simp at h
  | cons p rest ih =>
    obtain ⟨k', l⟩ := p
    by_cases hk : k' = k
    · simp [insertGrouped, hk]
    · have h' : k ∈ rest.map Prod.fst := by
        rcases List.mem_cons.mp h with h1 | h1
        · exact absurd h1.symm hk
        · exact h1
      simp [insertGrouped, hk, ih h']

theorem insertGrouped_keys_new {gs : List (String × List RawCommit)} {k : String}
    (c : RawCommit) (h : k ∉ gs.map Prod.fst) :
    (insertGrouped gs k c).map Prod.fst = gs.map Prod.fst ++ [k] := by
  induction gs with
  | nil => simp [insertGrouped]
  | cons p rest ih =>
    obtain ⟨k', l⟩ := p
    have hk : k' ≠ k := by
      intro he
      exact h (by simp [he])
    have h' : k ∉ rest.map Prod.fst := by
      intro hm
      exact h (by simp [hm])
    simp [insertGrouped, hk, ih h']

theorem insertGrouped_mem {gs : List (String × List RawCommit)} {k : String} {c : RawCommit}
    (hn : (gs.map Prod.fst).Nodup) :
    ∀ q ∈ insertGrouped gs k c,
      (q ∈ gs ∧ q.1 ≠ k) ∨
      (∃ l, (k, l) ∈ gs ∧ q = (k, l ++ [c])) ∨
      (k ∉ gs.map Prod.fst ∧ q = (k, [c])) := by
  induction gs with
  | nil =>
    intro q hq
    simp [insertGrouped] at hq
    exact Or.inr (Or.inr ⟨by simp, by simp [hq]⟩)
  | cons p rest ih =>
    obtain ⟨k', l⟩ := p
    have hn' : (rest.map Prod.fst).Nodup := (List.nodup_cons.mp hn).2
    have hk'notin : k' ∉ rest.map Prod.fst := (List.nodup_cons.mp hn).1
    intro q hq
    by_cases hk : k' = k
    · subst hk
      rw [show insertGrouped ((k', l) :: rest) k' c = (k', l ++ [c]) :: rest by
        simp [insertGrouped]] at hq
      rcases List.mem_cons.mp hq with h1 | h1
      · exact Or.inr (Or.inl ⟨l, List.mem_cons_self _ _, h1⟩)
      · left
        refine ⟨List.mem_cons_of_mem _ h1, ?_⟩
        intro he
        exact hk'notin (he ▸ List.mem_map_of_mem Prod.fst h1)
    · rw [show insertGrouped ((k', l) :: rest) k c = (k', l) :: insertGrouped rest k c by
        simp [insertGrouped, hk]] at hq
      rcases List.mem_cons.mp hq with h1 | h1
      · left
        exact ⟨h1 ▸ List.mem_cons_self _ _, by simp [h1, hk]⟩
      · rcases ih hn' q h1 with ⟨hm, hne⟩ | ⟨l', hl', he⟩ | ⟨hnot, he⟩
        · exact Or.inl ⟨List.mem_cons_of_mem _ hm, hne⟩
        · exact Or.inr (Or.inl ⟨l', List.mem_cons_of_mem _ hl', he⟩)
        · refine Or.inr (Or.inr ⟨?_, he⟩)
          intro hmem
          simp only [List.map_cons, List.mem_cons] at hmem
          rcases hmem with h2 | h2
          · exact hk h2.symm
          · exact hnot h2

theorem groupByKey_snoc (key : RawCommit → String) (cs : List RawCommit) (c : RawCommit) :
    groupByKey key (cs ++ [c]) = insertGrouped (groupByKey key cs) (key c) c := by
  unfold groupByKey
  rw [List.foldl_append]
  rfl

/-- The three well-formedness facts about the grouping loop: bucket keys are
distinct; each bucket holds exactly the commits whose id is its key, in
input order; the keys are exactly the ids occurring in the input. -/
theorem groupByKey_wf (key : RawCommit → String) (cs : List RawCommit) :
    ((groupByKey key cs).map Prod.fst).Nodup ∧
    (∀ p ∈ groupByKey key cs, p.2 = cs.filter (fun c => key c = p.1)) ∧
    (∀ k, k ∈ (groupByKey key cs).map Prod.fst ↔ k ∈ cs.map key) := by
  induction cs using List.reverseRecOn with
  | nil => simp [groupByKey]
  | append_singleton cs c ih =>
    obtain ⟨hnd, hfilter, hkeys⟩ := ih
    rw [groupByKey_snoc]
    refine ⟨?_, ?_, ?_⟩
    · by_cases hk : key c ∈ (groupByKey key cs).map Prod.fst
      · rw [insertGrouped_keys_mem _ hk]; exact hnd
      · rw [insertGrouped_keys_new _ hk]
        exact hnd.append (List.nodup_singleton _)
          (by simpa [List.disjoint_singleton] using hk)
    · intro p hp
      rcases insertGrouped_mem hnd p hp with ⟨hpg, hne⟩ | ⟨l, hl, he⟩ | ⟨hnot, he⟩
      · rw [hfilter p hpg, List.filter_append]
        have hfc : ¬ (key c = p.1) := fun h => hne h.symm
        simp [hfc]
      · subst he
        have hl2 := hfilter _ hl
        simp only at hl2 ⊢
        rw [List.filter_append, ← hl2]
        simp
      · subst he
        have hnotin : key c ∉ cs.map key := fun h => hnot ((hkeys (key c)).mpr h)
        have hfe : cs.filter (fun x => key x = key c) = [] := by
          rw [List.filter_eq_nil_iff]
          intro a ha
          simp only [decide_eq_true_eq]
          intro he
          exact hnotin (he ▸ List.mem_map_of_mem key ha)
        simp only
        rw [List.filter_append, hfe]
        simp
    · intro k
      rw [List.map_append]
      by_cases hk : key c ∈ (groupByKey key cs).map Prod.fst
      · rw [insertGrouped_keys_mem _ hk]
        constructor
        · intro h
          exact List.mem_append_left _ ((hkeys k).mp h)
        · intro h
          rcases List.mem_append.mp h with h1 | h1
          · exact (hkeys k).mpr h1
          · have : k = key c := by simpa using h1
            exact this ▸ hk
      · rw [insertGrouped_keys_new _ hk]
        constructor
        · intro h
          rcases List.mem_append.mp h with h1 | h1
          · exact List.mem_append_left _ ((hkeys k).mp h1)
          · exact List.mem_append_right _ (by simpa using h1)
        · intro h
          rcases List.mem_append.mp h with h1 | h1
          · exact List.mem_append_left _ ((hkeys k).mpr h1)
          · exact List.mem_append_right _ (by simpa using h1)

/-! ## Response shaping (`handleGetCommits`, lines 684-710) -/

/-- `Object.keys(groups).sort()`: the JS default comparator compares the
key strings by code units, i.e. lexicographic string order. -/
def sortStrings (l : List String) : List String :=
  l.mergeSort (fun a b => decide (a ≤ b))

/-- The emitted key order (lines 685-688): sorted keys, reversed when the
requested sort order is descending. -/
def emittedKeys (sortOrder : String) (gs : List (String × List RawCommit)) : List String :=
  if sortOrder = "desc" then (sortStrings (gs.map Prod.fst)).reverse
  else sortStrings (gs.map Prod.fst)

/-- `[...new Set(xs)]`: deduplication keeping first occurrences. -/
def firstDedup (l : List String) : List String :=
  l.foldl (fun acc x => if x ∈ acc then acc else acc ++ [x]) []

/-- One emitted group (lines 690-710).  The purely presentational fields
`label`, `startDate`, `endDate` are not embedded; no claim mentions them. -/
structure GroupOut where
  id : String
  type : String
  commitCount : Nat
  repos : List String
  repoCount : Nat
  commits : List FormattedCommit
deriving DecidableEq

/-- `groups[groupId]` for an emitted key. -/
def bucketOf (gs : List (String × List RawCommit)) (k : String) : List RawCommit :=
  (gs.lookup k).getD []

def mkGroupOut (groupBy : String) (gs : List (String × List RawCommit)) (k : String) :
    GroupOut :=
  { id := k, type := groupBy
    commitCount := (bucketOf gs k).length
    repos := firstDedup ((bucketOf gs k).map (·.repo))
    repoCount := (firstDedup ((bucketOf gs k).map (·.repo))).length
    commits := (bucketOf gs k).map formatCommit }

/-- Lines 690-710: the emitted group list. -/
def formattedGroups (groupBy sortOrder : String) (gs : List (String × List RawCommit)) :
    List GroupOut :=
  (emittedKeys sortOrder gs).map (mkGroupOut groupBy gs)

/-- The `switch (groupBy)` (lines 666-682), defaulting to week. -/
def groupsFor (groupBy : String) (cs : List RawCommit) : List (String × List RawCommit) :=
  if groupBy = "day" then groupCommitsByDay cs
  else if groupBy = "week" then groupCommitsByWeek cs
  else if groupBy = "month" then groupCommitsByMonth cs
  else if groupBy = "year" then groupCommitsByYear cs
  else groupCommitsByWeek cs

/-- Every `groupsFor` branch is the shared grouping loop for some id
function. -/
theorem groupsFor_eq (groupBy : String) : ∃ key, ∀ cs,
    groupsFor groupBy cs = groupByKey key cs := by
  by_cases h1 : groupBy = "day"
  · exact ⟨fun c => getDayId c.date, fun cs => by simp [groupsFor, groupCommitsByDay, h1]⟩
  by_cases h2 : groupBy = "week"
  · exact ⟨fun c => getWeekId c.date, fun cs => by simp [groupsFor, groupCommitsByWeek, h1, h2]⟩
  by_cases h3 : groupBy = "month"
  · exact ⟨fun c => getMonthId c.date, fun cs => by
      simp [groupsFor, groupCommitsByMonth, h1, h2, h3]⟩
  by_cases h4 : groupBy = "year"
  · exact ⟨fun c => getYearId c.date, fun cs => by
      simp [groupsFor, groupCommitsByYear, h1, h2, h3, h4]⟩
  · exact ⟨fun c => getWeekId c.date, fun cs => by
      simp [groupsFor, groupCommitsByWeek, h1, h2, h3, h4]⟩

theorem lookup_eq_of_mem {gs : List (String × List RawCommit)} {k : String} {l : List RawCommit}
    (hn : (gs.map Prod.fst).Nodup) (h : (k, l) ∈ gs) : gs.lookup k = some l := by
  induction gs with
  | nil => simp at h
  | cons p rest ih =>
    obtain ⟨k', l'⟩ := p
    rcases List.mem_cons.mp h with h1 | h1
    · cases h1
      simp [List.lookup]
    · have hk : k ≠ k' := by
        intro he
        have hm : k ∈ rest.map Prod.fst := List.mem_map_of_mem Prod.fst h1
        rw [he] at hm
        exact (List.nodup_cons.mp hn).1 hm
      have : (k == k') = false := by
        simp [hk]
      simp [List.lookup, this]
      exact ih (List.nodup_cons.mp hn).2 h1

/-- For an emitted key, `groups[k]` is exactly the input commits whose id
is `k`, in input order. -/
theorem bucketOf_groupByKey (key : RawCommit → String) (cs : List RawCommit) {k : String}
    (h : k ∈ (groupByKey key cs).map Prod.fst) :
    bucketOf (groupByKey key cs) k = cs.filter (fun c => key c = k) := by
  obtain ⟨hnd, hfilter, _⟩ := groupByKey_wf key cs
  obtain ⟨p, hp, hpk⟩ := List.mem_map.mp h
  have hl := hfilter p hp
  have hpe : p = (k, cs.filter (fun c => key c = k)) := by
    obtain ⟨pk, pl⟩ := p
    simp only at hpk hl
    rw [hpk] at hl ⊢
    rw [hl]
  rw [hpe] at hp
  unfold bucketOf
  rw [lookup_eq_of_mem hnd hp]
  rfl

theorem emittedKeys_perm (sortOrder : String) (gs : List (String × List RawCommit)) :
    (emittedKeys sortOrder gs).Perm (gs.map Prod.fst) := by
  unfold emittedKeys sortStrings
  split
  · exact (List.reverse_perm _).trans (List.mergeSort_perm _ _)
  · exact List.mergeSort_perm _ _

/-- Concatenating, over a duplicate-free covering key list, the sublists of
`cs` with each key yields a permutation of `cs`. -/
theorem flatten_filter_perm (key : RawCommit → String) :
    ∀ (ks : List String) (cs : List RawCommit), ks.Nodup → (∀ c ∈ cs, key c ∈ ks) →
    (ks.map (fun k => cs.filter (fun c => key c = k))).flatten.Perm cs := by
  intro ks
  induction ks with
  | nil =>
    intro cs _ hcov
    have : cs = [] := by
      cases cs with
      | nil => rfl
      | cons a l => exact absurd (hcov a (List.mem_cons_self a l)) (List.not_mem_nil _)
    subst this
    simp
  | cons k ks ih =>
    intro cs hnd hcov
    simp only [List.map_cons, List.flatten_cons]
    have htail : ∀ k' ∈ ks,
        cs.filter (fun c => key c = k') =
        (cs.filter (fun c => !(decide (key c = k)))).filter (fun c => key c = k') := by
      intro k' hk'
      have hne : k' ≠ k := fun he => (List.nodup_cons.mp hnd).1 (he ▸ hk')
      rw [List.filter_filter]
      apply List.filter_congr
      intro a _
      by_cases ha : key a = k'
      · have hak : ¬ (key a = k) := by
          rw [ha]
          exact hne
        simp [ha, hak, hne]
      · simp [ha]
    rw [List.map_congr_left htail]
    have hcov' : ∀ c ∈ cs.filter (fun c => !(decide (key c = k))), key c ∈ ks := by
      intro c hc
      obtain ⟨hcs, hdec⟩ := List.mem_filter.mp hc
      have : key c ≠ k := by simpa using hdec
      rcases List.mem_cons.mp (hcov c hcs) with h1 | h1
      · exact absurd h1 this
      · exact h1
    have hperm := ih (cs.filter (fun c => !(decide (key c = k)))) (List.nodup_cons.mp hnd).2 hcov'
    exact (List.Perm.append_left _ hperm).trans (List.filter_append_perm _ cs)

/-- The emitted buckets (raw commit lists, in emission order). -/
def emittedBuckets (groupBy sortOrder : String) (cs : List RawCommit) :
    List (List RawCommit) :=
  (emittedKeys sortOrder (groupsFor groupBy cs)).map (bucketOf (groupsFor groupBy cs))

theorem emittedBuckets_eq (groupBy sortOrder : String) (cs : List RawCommit) :
    ∃ key : RawCommit → String,
      groupsFor groupBy cs = groupByKey key cs ∧
      emittedBuckets groupBy sortOrder cs =
        (emittedKeys sortOrder (groupByKey key cs)).map
          (fun k => cs.filter (fun c => key c = k)) ∧
      (emittedKeys sortOrder (groupByKey key cs)).Nodup ∧
      (∀ c ∈ cs, key c ∈ emittedKeys sortOrder (groupByKey key cs)) := by
  obtain ⟨key, hkey⟩ := groupsFor_eq groupBy
  obtain ⟨hnd, hfilter, hkeys⟩ := groupByKey_wf key cs
  have hperm := emittedKeys_perm sortOrder (groupByKey key cs)
  refine ⟨key, hkey cs, ?_, hperm.symm.nodup hnd, ?_⟩
  · unfold emittedBuckets
    rw [hkey cs]
    apply List.map_congr_left
    intro k hk
    exact bucketOf_groupByKey key cs (hperm.mem_iff.mp hk)
  · intro c hc
    exact hperm.symm.mem_iff.mp ((hkeys (key c)).mpr (List.mem_map_of_mem key hc))

/-- The `commits` lists of the emitted groups are the emitted buckets
passed through `formatCommit`. -/
theorem formattedGroups_commits (groupBy sortOrder : String) (cs : List RawCommit) :
    (formattedGroups groupBy sortOrder (groupsFor groupBy cs)).map GroupOut.commits =
      (emittedBuckets groupBy sortOrder cs).map (List.map formatCommit) := by
  unfold formattedGroups mkGroupOut emittedBuckets
  rw [List.map_map, List.map_map]
  rfl

/-- **C1.**  For every input commit list, every grouping granularity (the
`groupBy` string: day, week, month, year, or anything else, which defaults
to week) and both sort orders, the emitted buckets partition the input:
concatenating the buckets in emission order is a permutation of the input
(no commit lost, none duplicated), the buckets are pairwise disjoint, every
input commit lies in exactly one bucket, and the `commits` lists of the
emitted groups are exactly those buckets passed through `formatCommit`. -/
theorem partition_invariant (groupBy sortOrder : String) (cs : List RawCommit) :
    (emittedBuckets groupBy sortOrder cs).flatten.Perm cs ∧
    List.Pairwise (fun b₁ b₂ => ∀ c, c ∈ b₁ → c ∉ b₂)
      (emittedBuckets groupBy sortOrder cs) ∧
    (∀ c ∈ cs, (emittedBuckets groupBy sortOrder cs).countP (fun b => decide (c ∈ b)) = 1) ∧
    (formattedGroups groupBy sortOrder (groupsFor groupBy cs)).map GroupOut.commits =
      (emittedBuckets groupBy sortOrder cs).map (List.map formatCommit) := by
  obtain ⟨key, hg, hbuckets, hnd, hcov⟩ := emittedBuckets_eq groupBy sortOrder cs
  refine ⟨?_, ?_, ?_, ?_⟩
  · rw [hbuckets]
    exact flatten_filter_perm key _ cs hnd hcov
  · rw [hbuckets]
    refine List.Pairwise.map _ ?_ hnd
    intro k₁ k₂ hne c hc₁ hc₂
    obtain ⟨_, he₁⟩ := List.mem_filter.mp hc₁
    obtain ⟨_, he₂⟩ := List.mem_filter.mp hc₂
    exact hne (by
      have e₁ : key c = k₁ := by simpa using he₁
      have e₂ : key c = k₂ := by simpa using he₂
      rw [← e₁, e₂])
  · intro c hc
    rw [hbuckets, List.countP_map]
    have h1 : List.countP ((fun b => decide (c ∈ b)) ∘ fun k => cs.filter (fun x => key x = k))
        (emittedKeys sortOrder (groupByKey key cs)) =
        List.countP (fun k => k == key c) (emittedKeys sortOrder (groupByKey key cs)) := by
      apply List.countP_congr
      intro k _
      simp only [Function.comp, beq_iff_eq, List.mem_filter, decide_eq_true_eq]
      constructor
      · rintro ⟨_, hkc⟩
        exact hkc.symm
      · intro hkc
        exact ⟨hc, hkc.symm⟩
    rw [h1]
    exact List.count_eq_one_of_mem hnd (hcov c hc)
  · exact formattedGroups_commits groupBy sortOrder cs

/-- **C2.**  The week bucket key is always the date of that week's Monday,
rendered `YYYY-MM-DD`: the week start reached by `getWeekStart` falls on a
Monday and is at most six days before the input day (so it is the Monday of
the Monday-started week containing it); a Sunday resolves to the Monday six
days earlier, any other weekday to the Monday of the same week
(`getDay - 1` days back); `getWeekId` renders exactly that Monday; and in
particular the commit day Sunday 2025-11-16 gets week key `2025-11-10`,
not `2025-11-17`. -/
theorem week_key_monday_rule :
    (∀ z : Int, jsGetDay (getWeekStart z) = 1 ∧ getWeekStart z ≤ z ∧ z < getWeekStart z + 7) ∧
    (∀ z : Int, jsGetDay z = 0 → getWeekStart z = z - 6) ∧
    (∀ z : Int, jsGetDay z ≠ 0 → getWeekStart z = z - (jsGetDay z - 1)) ∧
    (∀ ms : Int, getWeekId ms = formatDay (getWeekStart (dayNumOfMs ms))) ∧
    (jsGetDay 20408 = 0 ∧ formatDay 20408 = "2025-11-16" ∧
      getWeekId (20408 * 86400000) = "2025-11-10" ∧
      getWeekId (20408 * 86400000) ≠ "2025-11-17") := by
  refine ⟨?_, ?_, ?_, ?_, ?_, ?_, ?_, ?_⟩
  · intro z
    exact ⟨getWeekStart_monday z, (getWeekStart_near z).1, (getWeekStart_near z).2⟩
  · intro z h
    exact getWeekStart_sunday h
  · intro z h
    exact getWeekStart_weekday h
  · intro ms
    rfl
  · decide
  · decide
  · decide
  · decide

/-- Witness for C2: the Sunday and the non-Sunday clauses applied at the
concrete days 2025-11-16 (a Sunday) and 2025-11-15 (a Saturday). -/
theorem week_key_monday_rule_witness :
    (jsGetDay 20408 = 0 ∧ getWeekStart 20408 = 20408 - 6) ∧
    (jsGetDay 20407 ≠ 0 ∧ getWeekStart 20407 = 20407 - (jsGetDay 20407 - 1)) :=
  ⟨⟨by decide, week_key_monday_rule.2.1 20408 (by decide)⟩,
   ⟨by decide, week_key_monday_rule.2.2.1 20407 (by decide)⟩⟩

/-! ## Sorting (`handleGetCommits`, lines 646-663) -/

/-- JS string comparison result (used here to model `localeCompare` by
code-unit order; no claim depends on the locale subtleties). -/
def strCompare (a b : String) : Int := if a < b then -1 else if b < a then 1 else 0

/-- The sort comparator (lines 647-663): `date` compares the parsed author
dates, `repo`/`author` compare strings, anything else falls back to date. -/
def commitComparison (sortBy : String) (a b : RawCommit) : Int :=
  if sortBy = "date" then a.date - b.date
  else if sortBy = "repo" then strCompare a.repo b.repo
  else if sortBy = "author" then strCompare a.authorName b.authorName
  else a.date - b.date

/-- `commits.sort(...)` with the comparator above; the final
`sortOrder === 'desc' ? -comparison : comparison` negates the comparison.
JS `Array.prototype.sort` is stable, as is `mergeSort`. -/
def sortCommits (sortBy sortOrder : String) (cs : List RawCommit) : List RawCommit :=
  cs.mergeSort (fun a b =>
    decide ((if sortOrder = "desc" then -(commitComparison sortBy a b)
             else commitComparison sortBy a b) ≤ 0))

theorem sortCommits_perm (sortBy sortOrder : String) (cs : List RawCommit) :
    (sortCommits sortBy sortOrder cs).Perm cs :=
  List.mergeSort_perm _ _

theorem commitComparison_date (a b : RawCommit) :
    commitComparison "date" a b = a.date - b.date := by
  unfold commitComparison
  rw [if_pos rfl]

/-- Sorting by date ascending yields a list with non-decreasing dates. -/
theorem sortCommits_date_asc_sorted (cs : List RawCommit) :
    List.Pairwise (fun a b : RawCommit => a.date ≤ b.date)
      (sortCommits "date" "asc" cs) := by
  have hne : ("asc" : String) ≠ "desc" := by decide
  unfold sortCommits
  have h := @List.sorted_mergeSort RawCommit
    (fun a b : RawCommit =>
      decide ((if ("asc" : String) = "desc" then -(commitComparison "date" a b)
               else commitComparison "date" a b) ≤ 0))
    (fun a b c hab hbc => by
      rw [decide_eq_true_eq, if_neg hne, commitComparison_date] at hab hbc ⊢
      omega)
    (fun a b => by
      simp only [Bool.or_eq_true, decide_eq_true_eq]
      rw [if_neg hne, if_neg hne, commitComparison_date, commitComparison_date]
      omega)
    cs
  refine h.imp ?_
  intro a b hab
  rw [decide_eq_true_eq, if_neg hne, commitComparison_date] at hab
  omega

/-! ## Date-range hypotheses for the rendered keys -/

/-- The day of the commit's author date lies between 1000-01-07 and
9999-12-31, so that every derived bucket key (including the week key, which
can reach six days back) renders with a four-digit year. -/
def dateInRange (c : RawCommit) : Prop :=
  loDay + 6 ≤ dayNumOfMs c.date ∧ dayNumOfMs c.date ≤ hiDay

instance (c : RawCommit) : Decidable (dateInRange c) := by
  unfold dateInRange
  infer_instance

theorem dayNumOfMs_mono {ms₁ ms₂ : Int} (h : ms₁ ≤ ms₂) :
    dayNumOfMs ms₁ ≤ dayNumOfMs ms₂ := by
  unfold dayNumOfMs
  omega

theorem getDayId_mono {c₁ c₂ : RawCommit} (h₁ : dateInRange c₁) (h₂ : dateInRange c₂)
    (h : c₁.date ≤ c₂.date) : getDayId c₁.date ≤ getDayId c₂.date := by
  obtain ⟨hlo₁, hhi₁⟩ := h₁
  obtain ⟨hlo₂, hhi₂⟩ := h₂
  exact formatDay_le (dayNumOfMs_mono h) (by omega) hhi₂

theorem getWeekId_mono {c₁ c₂ : RawCommit} (h₁ : dateInRange c₁) (h₂ : dateInRange c₂)
    (h : c₁.date ≤ c₂.date) : getWeekId c₁.date ≤ getWeekId c₂.date := by
  obtain ⟨hlo₁, hhi₁⟩ := h₁
  obtain ⟨hlo₂, hhi₂⟩ := h₂
  have hn₁ := getWeekStart_near (dayNumOfMs c₁.date)
  have hn₂ := getWeekStart_near (dayNumOfMs c₂.date)
  exact formatDay_le (getWeekStart_mono (dayNumOfMs_mono h)) (by omega) (by omega)

theorem getMonthId_mono {c₁ c₂ : RawCommit} (h₁ : dateInRange c₁) (h₂ : dateInRange c₂)
    (h : c₁.date ≤ c₂.date) : getMonthId c₁.date ≤ getMonthId c₂.date := by
  obtain ⟨hlo₁, hhi₁⟩ := h₁
  obtain ⟨hlo₂, hhi₂⟩ := h₂
  exact getMonthKey_le (dayNumOfMs_mono h) (by omega) hhi₂

theorem getYearId_mono {c₁ c₂ : RawCommit} (h₁ : dateInRange c₁) (h₂ : dateInRange c₂)
    (h : c₁.date ≤ c₂.date) : getYearId c₁.date ≤ getYearId c₂.date := by
  obtain ⟨hlo₁, hhi₁⟩ := h₁
  obtain ⟨hlo₂, hhi₂⟩ := h₂
  exact getYearKey_le (dayNumOfMs_mono h) (by omega) hhi₂

/-- Every `groupsFor` branch uses an id function that is monotone in the
commit date (over the supported range). -/
theorem groupsFor_eq_mono (groupBy : String) : ∃ key,
    (∀ cs, groupsFor groupBy cs = groupByKey key cs) ∧
    (∀ c₁ c₂ : RawCommit, dateInRange c₁ → dateInRange c₂ → c₁.date ≤ c₂.date →
      key c₁ ≤ key c₂) := by
  by_cases h1 : groupBy = "day"
  · exact ⟨fun c => getDayId c.date, fun cs => by simp [groupsFor, groupCommitsByDay, h1],
      fun c₁ c₂ => getDayId_mono⟩
  by_cases h2 : groupBy = "week"
  · exact ⟨fun c => getWeekId c.date,
      fun cs => by simp [groupsFor, groupCommitsByWeek, h1, h2],
      fun c₁ c₂ => getWeekId_mono⟩
  by_cases h3 : groupBy = "month"
  · exact ⟨fun c => getMonthId c.date,
      fun cs => by simp [groupsFor, groupCommitsByMonth, h1, h2, h3],
      fun c₁ c₂ => getMonthId_mono⟩
  by_cases h4 : groupBy = "year"
  · exact ⟨fun c => getYearId c.date,
      fun cs => by simp [groupsFor, groupCommitsByYear, h1, h2, h3, h4],
      fun c₁ c₂ => getYearId_mono⟩
  · exact ⟨fun c => getWeekId c.date,
      fun cs => by simp [groupsFor, groupCommitsByWeek, h1, h2, h3, h4],
      fun c₁ c₂ => getWeekId_mono⟩

/-- With ascending order, the emitted keys are strictly increasing strings. -/
theorem emittedKeys_asc_sorted {gs : List (String × List RawCommit)}
    (hnd : (gs.map Prod.fst).Nodup) :
    List.Pairwise (· < ·) (emittedKeys "asc" gs) := by
  have hne : ("asc" : String) ≠ "desc" := by decide
  unfold emittedKeys
  rw [if_neg hne]
  unfold sortStrings
  have hle := @List.sorted_mergeSort String (fun a b : String => decide (a ≤ b))
    (fun a b c hab hbc => by
      rw [decide_eq_true_eq] at hab hbc ⊢
      exact le_trans hab hbc)
    (fun a b => by
      simp only [Bool.or_eq_true, decide_eq_true_eq]
      exact le_total a b)
    (gs.map Prod.fst)
  have hle' : List.Pairwise (fun a b : String => a ≤ b)
      ((gs.map Prod.fst).mergeSort (fun a b => decide (a ≤ b))) :=
    hle.imp (fun {a b} h => by rwa [decide_eq_true_eq] at h)
  have hnd' : ((gs.map Prod.fst).mergeSort (fun a b => decide (a ≤ b))).Nodup :=
    (List.mergeSort_perm _ _).symm.nodup hnd
  exact (hle'.and hnd').imp (fun {a b} h => lt_of_le_of_ne h.1 h.2)

/-- **C3.**  When the query requests `sortBy=date, sortOrder=asc`, reading
the emitted buckets in emission order and concatenating their commit lists
yields non-decreasing commit dates end to end: sorting happens once on the
flat list before bucketing, grouping preserves that order inside each
bucket, and buckets are emitted in ascending key order (reversal happens
only for `desc`).  The hypothesis restricts commit dates to days
1000-01-07..9999-12-31, the range on which every bucket key renders with a
four-digit year. -/
theorem sort_order_consistency (groupBy : String) (cs : List RawCommit)
    (hr : ∀ c ∈ cs, dateInRange c) :
    List.Pairwise (fun a b : FormattedCommit => a.date ≤ b.date)
      (((formattedGroups groupBy "asc"
        (groupsFor groupBy (sortCommits "date" "asc" cs))).map GroupOut.commits).flatten) := by
  obtain ⟨key, hkey, hmono⟩ := groupsFor_eq_mono groupBy
  have hSperm : (sortCommits "date" "asc" cs).Perm cs := sortCommits_perm _ _ _
  have hrS : ∀ c ∈ sortCommits "date" "asc" cs, dateInRange c :=
    fun c hc => hr c (hSperm.mem_iff.mp hc)
  have hSsorted := sortCommits_date_asc_sorted cs
  obtain ⟨hnd, hfilter, hkeys⟩ := groupByKey_wf key (sortCommits "date" "asc" cs)
  have hbe : emittedBuckets groupBy "asc" (sortCommits "date" "asc" cs) =
      (emittedKeys "asc" (groupByKey key (sortCommits "date" "asc" cs))).map
        (fun k => (sortCommits "date" "asc" cs).filter (fun c => key c = k)) := by
    unfold emittedBuckets
    rw [hkey]
    apply List.map_congr_left
    intro k hk
    exact bucketOf_groupByKey key _ ((emittedKeys_perm "asc" _).mem_iff.mp hk)
  rw [formattedGroups_commits, ← List.map_flatten, List.pairwise_map, hbe]
  apply List.pairwise_flatten.mpr
  constructor
  · intro l hl
    obtain ⟨k, _, rfl⟩ := List.mem_map.mp hl
    exact (hSsorted.sublist (List.filter_sublist _)).imp (fun {a b} h => h)
  · refine List.Pairwise.map _ ?_ (emittedKeys_asc_sorted hnd)
    intro k₁ k₂ hklt x hx y hy
    obtain ⟨hxS, hxk⟩ := List.mem_filter.mp hx
    obtain ⟨hyS, hyk⟩ := List.mem_filter.mp hy
    show x.date ≤ y.date
    by_contra hxy
    push_neg at hxy
    have hkk := hmono y x (hrS y hyS) (hrS x hxS) (le_of_lt hxy)
    have e₁ : key x = k₁ := by simpa using hxk
    have e₂ : key y = k₂ := by simpa using hyk
    rw [e₁, e₂] at hkk
    exact absurd hklt (not_lt.mpr hkk)

/-- A minimal commit record used by concrete witnesses. -/
def sampleCommit (sha repo : String) (date : Int) : RawCommit :=
  { sha := sha, message := "fix: login bug", authorName := "ada"
    authorEmail := "ada@example.com", date := date, url := "https://example.com"
    repo := repo, org := "core-home-web" }

/-- Witness for C3: two commits, dated 2025-11-16 and 2025-11-10 (different
weeks), grouped by week ascending. -/
theorem sort_order_consistency_witness :
    (∀ c ∈ [sampleCommit "a1" "r1" (20408 * 86400000),
            sampleCommit "b2" "r2" (20402 * 86400000)], dateInRange c) ∧
    List.Pairwise (fun a b : FormattedCommit => a.date ≤ b.date)
      (((formattedGroups "week" "asc"
        (groupsFor "week" (sortCommits "date" "asc"
          [sampleCommit "a1" "r1" (20408 * 86400000),
           sampleCommit "b2" "r2" (20402 * 86400000)]))).map GroupOut.commits).flatten) :=
  ⟨by decide, sort_order_consistency "week"
    [sampleCommit "a1" "r1" (20408 * 86400000),
     sampleCommit "b2" "r2" (20402 * 86400000)] (by decide)⟩

/-! ## Upstream Client (`fetchRepoCommits`, lines 42-105; template variant
lines 236-325)

The network is abstracted as a function from page index to response: page
`i` is what the `i`-th request of the pagination loop returns.  A response
carries the HTTP status, the parsed commit array, and whether the `Link`
header supplies a `rel="next"` continuation.  The response body text used
in the thrown error message is not modelled. -/

structure PageResp where
  status : Nat
  commits : List GhCommit
  next : Bool

/-- `Response.ok`: status in the range 200-299. -/
def statusOk (s : Nat) : Bool := decide (200 ≤ s) && decide (s ≤ 299)

/-- The pagination loop of `fetchRepoCommits` (lines 63-101).  `fuel` is
`maxPages - pageCount`; the call starts with `fuel = 20`, `i = 0`.  Returns
the accumulated annotated commits and the final `pageCount` (the value the
source logs and implicitly returns via `allCommits`). -/
def fetchLoop (org repo : String) (pages : Nat → PageResp) :
    Nat → Nat → List RawCommit → Except String (List RawCommit × Nat)
  | 0, i, acc => .ok (acc, i)
  | fuel + 1, i, acc =>
    let p := pages i
    if p.status = 403 ∨ p.status = 429 then .ok (acc, i)
    else if statusOk p.status = false then
      .error ("GitHub API error: " ++ toString p.status)
    else
      let acc' := acc ++ p.commits.map (withRepo org repo)
      if p.next then fetchLoop org repo pages fuel (i + 1) acc'
      else .ok (acc', i + 1)

/-- `fetchRepoCommits` (lines 42-105): up to `maxPages = 20` pages. -/
def fetchRepoCommits (org repo : String) (pages : Nat → PageResp) :
    Except String (List RawCommit × Nat) :=
  fetchLoop org repo pages 20 0 []

/-- The template variant's pagination loop (template lines 270-322): same
as `fetchLoop`, but additionally breaks after appending a page of fewer
than 100 commits (after `pageCount++`). -/
def fetchLoopT (org repo : String) (pages : Nat → PageResp) :
    Nat → Nat → List RawCommit → Except String (List RawCommit × Nat)
  | 0, i, acc => .ok (acc, i)
  | fuel + 1, i, acc =>
    let p := pages i
    if p.status = 403 ∨ p.status = 429 then .ok (acc, i)
    else if statusOk p.status = false then
      .error ("GitHub API error: " ++ toString p.status)
    else
      let acc' := acc ++ p.commits.map (withRepo org repo)
      if p.commits.length < 100 then .ok (acc', i + 1)
      else if p.next then fetchLoopT org repo pages fuel (i + 1) acc'
      else .ok (acc', i + 1)

/-- Template `fetchRepoCommits` (lines 236-325). -/
def fetchRepoCommitsT (org repo : String) (pages : Nat → PageResp) :
    Except String (List RawCommit × Nat) :=
  fetchLoopT org repo pages 20 0 []

/-- `.catch(() => [])`: a failed per-repo fetch contributes an empty array. -/
def recoverCommits (x : Except String (List RawCommit × Nat)) : List RawCommit :=
  match x with
  | .ok (l, _) => l
  | .error _ => []

/-- `fetchAllCommits` (lines 116-128): fan out over the repos, swallow
per-repo errors, flatten. -/
def fetchAllCommits (repos : List String) (org : String)
    (pagesOf : String → Nat → PageResp) : List RawCommit :=
  (repos.map (fun repo => recoverCommits (fetchRepoCommits org repo (pagesOf repo)))).flatten

/-- Template `fetchAllCommits` (template lines 333-353), built on the
template per-repo fetch. -/
def fetchAllCommitsT (repos : List String) (org : String)
    (pagesOf : String → Nat → PageResp) : List RawCommit :=
  (repos.map (fun repo => recoverCommits (fetchRepoCommitsT org repo (pagesOf repo)))).flatten

/-- Pages `0..k-1` are all successful and carry a continuation link. -/
def pagesOkPrefix (pages : Nat → PageResp) (k : Nat) : Prop :=
  ∀ i, i < k → statusOk (pages i).status = true ∧ (pages i).next = true

instance (pages : Nat → PageResp) (k : Nat) : Decidable (pagesOkPrefix pages k) := by
  unfold pagesOkPrefix
  infer_instance

/-- Pages `0..k-1` are successful, full (100 commits) and linked: the
template loop keeps going exactly on such pages. -/
def pagesOkPrefixT (pages : Nat → PageResp) (k : Nat) : Prop :=
  ∀ i, i < k → statusOk (pages i).status = true ∧ (pages i).next = true ∧
    (pages i).commits.length = 100

instance (pages : Nat → PageResp) (k : Nat) : Decidable (pagesOkPrefixT pages k) := by
  unfold pagesOkPrefixT
  infer_instance

/-- The annotated commits of pages `0..k-1` in order. -/
def prefixCommits (org repo : String) (pages : Nat → PageResp) (k : Nat) : List RawCommit :=
  ((List.range k).map (fun i => (pages i).commits.map (withRepo org repo))).flatten

theorem statusOk_ne_rate {s : Nat} (h : statusOk s = true) : ¬ (s = 403 ∨ s = 429) := by
  unfold statusOk at h
  simp only [Bool.and_eq_true, decide_eq_true_eq] at h
  omega

/-- Running the loop across an all-ok prefix accumulates those pages. -/
theorem fetchLoop_okPages (org repo : String) (pages : Nat → PageResp) :
    ∀ (k fuel i : Nat) (acc : List RawCommit),
    (∀ j, j < k → statusOk (pages (i + j)).status = true ∧ (pages (i + j)).next = true) →
    k ≤ fuel →
    fetchLoop org repo pages fuel i acc =
      fetchLoop org repo pages (fuel - k) (i + k)
        (acc ++ ((List.range k).map
          (fun j => (pages (i + j)).commits.map (withRepo org repo))).flatten) := by
  intro k
  induction k with
  | zero =>
    intro fuel i acc _ _
    simp
  | succ k ih =>
    intro fuel i acc hok hk
    obtain ⟨h0ok, h0next⟩ := hok 0 (by omega)
    cases fuel with
    | zero => omega
    | succ fuel =>
      have h0ok' : statusOk (pages i).status = true := by simpa using h0ok
      have h0next' : (pages i).next = true := by simpa using h0next
      have hstep : fetchLoop org repo pages (fuel + 1) i acc =
          fetchLoop org repo pages fuel (i + 1)
            (acc ++ (pages i).commits.map (withRepo org repo)) := by
        show (if (pages i).status = 403 ∨ (pages i).status = 429 then _ else _) = _
        rw [if_neg (statusOk_ne_rate h0ok')]
        rw [if_neg (by simp [h0ok'])]
        rw [if_pos h0next']
      rw [hstep]
      have ih' := ih fuel (i + 1)
        (acc ++ (pages i).commits.map (withRepo org repo))
        (fun j hj => by
          have := hok (j + 1) (by omega)
          constructor
          · rw [show i + 1 + j = i + (j + 1) by omega]
            exact this.1
          · rw [show i + 1 + j = i + (j + 1) by omega]
            exact this.2)
        (by omega)
      rw [ih']
      congr 1
      · omega
      · omega
      · rw [List.range_succ_eq_map, List.map_cons, List.flatten_cons, List.map_map]
        rw [List.append_assoc]
        congr 2
        congr 1
        apply List.map_congr_left
        intro j _
        simp only [Function.comp]
        rw [show i + Nat.succ j = i + 1 + j by omega]

/-- Running the template loop across an all-ok, all-full prefix. -/
theorem fetchLoopT_okPages (org repo : String) (pages : Nat → PageResp) :
    ∀ (k fuel i : Nat) (acc : List RawCommit),
    (∀ j, j < k → statusOk (pages (i + j)).status = true ∧ (pages (i + j)).next = true ∧
      (pages (i + j)).commits.length = 100) →
    k ≤ fuel →
    fetchLoopT org repo pages fuel i acc =
      fetchLoopT org repo pages (fuel - k) (i + k)
        (acc ++ ((List.range k).map
          (fun j => (pages (i + j)).commits.map (withRepo org repo))).flatten) := by
  intro k
  induction k with
  | zero =>
    intro fuel i acc _ _
    simp
  | succ k ih =>
    intro fuel i acc hok hk
    obtain ⟨h0ok, h0next, h0len⟩ := hok 0 (by omega)
    cases fuel with
    | zero => omega
    | succ fuel =>
      have h0ok' : statusOk (pages i).status = true := by simpa using h0ok
      have h0next' : (pages i).next = true := by simpa using h0next
      have h0len' : (pages i).commits.length = 100 := by simpa using h0len
      have hstep : fetchLoopT org repo pages (fuel + 1) i acc =
          fetchLoopT org repo pages fuel (i + 1)
            (acc ++ (pages i).commits.map (withRepo org repo)) := by
        show (if (pages i).status = 403 ∨ (pages i).status = 429 then _ else _) = _
        rw [if_neg (statusOk_ne_rate h0ok')]
        rw [if_neg (by simp [h0ok'])]
        rw [if_neg (by omega)]
        rw [if_pos h0next']
      rw [hstep]
      have ih' := ih fuel (i + 1)
        (acc ++ (pages i).commits.map (withRepo org repo))
        (fun j hj => by
          have := hok (j + 1) (by omega)
          rw [show i + 1 + j = i + (j + 1) by omega]
          exact this)
        (by omega)
      rw [ih']
      congr 1
      · omega
      · omega
      · rw [List.range_succ_eq_map, List.map_cons, List.flatten_cons, List.map_map]
        rw [List.append_assoc]
        congr 2
        congr 1
        apply List.map_congr_left
        intro j _
        simp only [Function.comp]
        rw [show i + Nat.succ j = i + 1 + j by omega]

theorem fetchLoop_succ (org repo : String) (pages : Nat → PageResp) (fuel i : Nat)
    (acc : List RawCommit) :
    fetchLoop org repo pages (fuel + 1) i acc =
      if (pages i).status = 403 ∨ (pages i).status = 429 then .ok (acc, i)
      else if statusOk (pages i).status = false then
        .error ("GitHub API error: " ++ toString (pages i).status)
      else if (pages i).next then
        fetchLoop org repo pages fuel (i + 1) (acc ++ (pages i).commits.map (withRepo org repo))
      else .ok (acc ++ (pages i).commits.map (withRepo org repo), i + 1) := rfl

theorem fetchLoopT_succ (org repo : String) (pages : Nat → PageResp) (fuel i : Nat)
    (acc : List RawCommit) :
    fetchLoopT org repo pages (fuel + 1) i acc =
      if (pages i).status = 403 ∨ (pages i).status = 429 then .ok (acc, i)
      else if statusOk (pages i).status = false then
        .error ("GitHub API error: " ++ toString (pages i).status)
      else if (pages i).commits.length < 100 then
        .ok (acc ++ (pages i).commits.map (withRepo org repo), i + 1)
      else if (pages i).next then
        fetchLoopT org repo pages fuel (i + 1) (acc ++ (pages i).commits.map (withRepo org repo))
      else .ok (acc ++ (pages i).commits.map (withRepo org repo), i + 1) := rfl

/-- Reduction of the whole fetch to the loop positioned after an ok prefix. -/
theorem fetchRepoCommits_resume (org repo : String) (pages : Nat → PageResp) (k : Nat)
    (hk : k ≤ 20) (hpre : pagesOkPrefix pages k) :
    fetchRepoCommits org repo pages =
      fetchLoop org repo pages (20 - k) k (prefixCommits org repo pages k) := by
  unfold fetchRepoCommits
  rw [fetchLoop_okPages org repo pages k 20 0 [] (fun j hj => by simpa using hpre j hj) hk]
  simp only [Nat.zero_add, List.nil_append]
  rfl

theorem fetchRepoCommitsT_resume (org repo : String) (pages : Nat → PageResp) (k : Nat)
    (hk : k ≤ 20) (hpre : pagesOkPrefixT pages k) :
    fetchRepoCommitsT org repo pages =
      fetchLoopT org repo pages (20 - k) k (prefixCommits org repo pages k) := by
  unfold fetchRepoCommitsT
  rw [fetchLoopT_okPages org repo pages k 20 0 [] (fun j hj => by simpa using hpre j hj) hk]
  simp only [Nat.zero_add, List.nil_append]
  rfl

theorem prefixCommits_succ (org repo : String) (pages : Nat → PageResp) (k : Nat) :
    prefixCommits org repo pages (k + 1) =
      prefixCommits org repo pages k ++ (pages k).commits.map (withRepo org repo) := by
  unfold prefixCommits
  rw [List.range_succ, List.map_append, List.flatten_append]
  simp

/-- **C4.**  In a single-repository fetch, a page answered with HTTP 403 or
429 stops pagination and returns exactly the commits accumulated from the
earlier pages, with no error; any other non-success status makes the fetch
fail with an error (no partial result is returned). -/
theorem rate_limit_partial_result (org repo : String) (pages : Nat → PageResp) (k : Nat)
    (hk : k < 20) (hpre : pagesOkPrefix pages k) :
    ((pages k).status = 403 ∨ (pages k).status = 429 →
      fetchRepoCommits org repo pages = .ok (prefixCommits org repo pages k, k)) ∧
    (statusOk (pages k).status = false → ¬ (pages k).status = 403 → ¬ (pages k).status = 429 →
      fetchRepoCommits org repo pages =
        .error ("GitHub API error: " ++ toString (pages k).status)) := by
  have hmain := fetchRepoCommits_resume org repo pages k (by omega) hpre
  obtain ⟨f, hf⟩ : ∃ f, 20 - k = f + 1 := ⟨20 - k - 1, by omega⟩
  constructor
  · intro hrl
    rw [hmain, hf, fetchLoop_succ, if_pos hrl]
  · intro hnok h403 h429
    rw [hmain, hf, fetchLoop_succ, if_neg (by tauto), if_pos hnok]

set_option maxRecDepth 8000 in
/-- Witness for C4: page 0 delivers 100 commits with a continuation, page 1
answers 429; the fetch returns exactly those 100 commits, and with a 500
instead it errors. -/
theorem rate_limit_partial_result_witness :
    (1 < 20 ∧ pagesOkPrefix (fun i => if i = 0 then
        ⟨200, List.replicate 100 ⟨"s", "m", "a", "e", 0, "u"⟩, true⟩
      else ⟨429, [], false⟩) 1) ∧
    fetchRepoCommits "o" "r" (fun i => if i = 0 then
        ⟨200, List.replicate 100 ⟨"s", "m", "a", "e", 0, "u"⟩, true⟩
      else ⟨429, [], false⟩) =
      .ok (List.replicate 100 (withRepo "o" "r" ⟨"s", "m", "a", "e", 0, "u"⟩), 1) ∧
    fetchRepoCommits "o" "r" (fun i => if i = 0 then
        ⟨200, List.replicate 100 ⟨"s", "m", "a", "e", 0, "u"⟩, true⟩
      else ⟨500, [], false⟩) = .error "GitHub API error: 500" := by
  refine ⟨⟨by omega, by decide⟩, ?_, ?_⟩
  · have h := (rate_limit_partial_result "o" "r" (fun i => if i = 0 then
        ⟨200, List.replicate 100 ⟨"s", "m", "a", "e", 0, "u"⟩, true⟩
      else ⟨429, [], false⟩) 1 (by omega) (by decide)).1 (by decide)
    rw [h]
    rfl
  · have h := (rate_limit_partial_result "o" "r" (fun i => if i = 0 then
        ⟨200, List.replicate 100 ⟨"s", "m", "a", "e", 0, "u"⟩, true⟩
      else ⟨500, [], false⟩) 1 (by omega) (by decide)).2 (by decide) (by decide) (by decide)
    rw [h]
    rfl

theorem fetchLoop_count (org repo : String) (pages : Nat → PageResp) :
    ∀ (fuel i : Nat) (acc l : List RawCommit) (n : Nat),
    fetchLoop org repo pages fuel i acc = .ok (l, n) → n ≤ i + fuel := by
  intro fuel
  induction fuel with
  | zero =>
    intro i acc l n h
    simp only [fetchLoop, Except.ok.injEq, Prod.mk.injEq] at h
    omega
  | succ fuel ih =>
    intro i acc l n h
    rw [fetchLoop_succ] at h
    split at h
    · simp only [Except.ok.injEq, Prod.mk.injEq] at h
      omega
    · split at h
      · exact absurd h (by simp)
      · split at h
        · have := ih (i + 1) _ l n h
          omega
        · simp only [Except.ok.injEq, Prod.mk.injEq] at h
          omega

theorem fetchLoopT_count (org repo : String) (pages : Nat → PageResp) :
    ∀ (fuel i : Nat) (acc l : List RawCommit) (n : Nat),
    fetchLoopT org repo pages fuel i acc = .ok (l, n) → n ≤ i + fuel := by
  intro fuel
  induction fuel with
  | zero =>
    intro i acc l n h
    simp only [fetchLoopT, Except.ok.injEq, Prod.mk.injEq] at h
    omega
  | succ fuel ih =>
    intro i acc l n h
    rw [fetchLoopT_succ] at h
    split at h
    · simp only [Except.ok.injEq, Prod.mk.injEq] at h
      omega
    · split at h
      · exact absurd h (by simp)
      · split at h
        · simp only [Except.ok.injEq, Prod.mk.injEq] at h
          omega
        · split at h
          · have := ih (i + 1) _ l n h
            omega
          · simp only [Except.ok.injEq, Prod.mk.injEq] at h
            omega

/-- **C7.**  The pagination loop terminates with at most 20 page requests:
a successful fetch reports at most 20 pages (both the worker and the
template variant); a page without a continuation link stops the loop early
with the pages seen so far (worker variant); a page with fewer than 100
commits stops the template loop early likewise; and an all-ok stream stops
at the 20-page ceiling with a normal (non-error) result carrying the 20
pages fetched. -/
theorem pagination_termination (org repo : String) (pages : Nat → PageResp) :
    (∀ l n, fetchRepoCommits org repo pages = .ok (l, n) → n ≤ 20) ∧
    (∀ l n, fetchRepoCommitsT org repo pages = .ok (l, n) → n ≤ 20) ∧
    (∀ k, k < 20 → pagesOkPrefix pages k → statusOk (pages k).status = true →
      (pages k).next = false →
      fetchRepoCommits org repo pages = .ok (prefixCommits org repo pages (k + 1), k + 1)) ∧
    (∀ k, k < 20 → pagesOkPrefixT pages k → statusOk (pages k).status = true →
      (pages k).commits.length < 100 →
      fetchRepoCommitsT org repo pages = .ok (prefixCommits org repo pages (k + 1), k + 1)) ∧
    (pagesOkPrefix pages 20 →
      fetchRepoCommits org repo pages = .ok (prefixCommits org repo pages 20, 20)) := by
  refine ⟨?_, ?_, ?_, ?_, ?_⟩
  · intro l n h
    have := fetchLoop_count org repo pages 20 0 [] l n h
    omega
  · intro l n h
    have := fetchLoopT_count org repo pages 20 0 [] l n h
    omega
  · intro k hk hpre hok hnext
    have hmain := fetchRepoCommits_resume org repo pages k (by omega) hpre
    obtain ⟨f, hf⟩ : ∃ f, 20 - k = f + 1 := ⟨20 - k - 1, by omega⟩
    rw [hmain, hf, fetchLoop_succ, if_neg (statusOk_ne_rate hok), if_neg (by simp [hok]),
      if_neg (by simp [hnext]), prefixCommits_succ]
  · intro k hk hpre hok hlen
    have hmain := fetchRepoCommitsT_resume org repo pages k (by omega) hpre
    obtain ⟨f, hf⟩ : ∃ f, 20 - k = f + 1 := ⟨20 - k - 1, by omega⟩
    rw [hmain, hf, fetchLoopT_succ, if_neg (statusOk_ne_rate hok), if_neg (by simp [hok]),
      if_pos hlen, prefixCommits_succ]
  · intro hpre
    have hmain := fetchRepoCommits_resume org repo pages 20 (by omega) hpre
    rw [hmain]
    rfl

set_option maxRecDepth 8000 in
/-- Witness for C7: a stream whose first page is full but unlinked stops
after one page with a normal result. -/
theorem pagination_termination_witness :
    (0 < 20 ∧ pagesOkPrefix (fun _ => ⟨200, [⟨"s7", "m", "a", "e", 0, "u"⟩], false⟩) 0) ∧
    fetchRepoCommits "o7" "r7" (fun _ => ⟨200, [⟨"s7", "m", "a", "e", 0, "u"⟩], false⟩) =
      .ok ([withRepo "o7" "r7" ⟨"s7", "m", "a", "e", 0, "u"⟩], 1) := by
  refine ⟨⟨by omega, by decide⟩, ?_⟩
  have h := (pagination_termination "o7" "r7"
    (fun _ => ⟨200, [⟨"s7", "m", "a", "e", 0, "u"⟩], false⟩)).2.2.1 0 (by omega) (by decide)
    (by decide) (by decide)
  rw [h]
  rfl

/-- **C5.**  If the fetch of repository `a` fails, `a` contributes an empty
result and the multi-repo fetch returns exactly the flattened commits of
the other repositories; no error propagates (the function returns a plain
list in every case). -/
theorem failure_isolation (repos : List String) (org : String)
    (pagesOf : String → Nat → PageResp) (a : String) (e : String)
    (ha : fetchRepoCommits org a (pagesOf a) = .error e) :
    recoverCommits (fetchRepoCommits org a (pagesOf a)) = [] ∧
    fetchAllCommits repos org pagesOf =
      ((repos.filter (fun r => r ≠ a)).map
        (fun r => recoverCommits (fetchRepoCommits org r (pagesOf r)))).flatten := by
  have hrec : recoverCommits (fetchRepoCommits org a (pagesOf a)) = [] := by
    rw [ha]
    rfl
  refine ⟨hrec, ?_⟩
  induction repos with
  | nil => rfl
  | cons r rest ih =>
    by_cases hr : r = a
    · subst hr
      show (recoverCommits (fetchRepoCommits org r (pagesOf r)) ++
        (rest.map (fun r => recoverCommits (fetchRepoCommits org r (pagesOf r)))).flatten) = _
      rw [hrec]
      rw [show (r :: rest).filter (fun x => decide (x ≠ r)) = rest.filter (fun x => decide (x ≠ r))
        by simp]
      simpa using ih
    · show (recoverCommits (fetchRepoCommits org r (pagesOf r)) ++
        (rest.map (fun x => recoverCommits (fetchRepoCommits org x (pagesOf x)))).flatten) = _
      rw [show (r :: rest).filter (fun x => decide (x ≠ a)) =
        r :: rest.filter (fun x => decide (x ≠ a)) by simp [hr]]
      rw [List.map_cons, List.flatten_cons]
      congr 1

set_option maxRecDepth 8000 in
/-- Witness for C5: repo `rA` errors with a 500, repo `rB` returns two
commits; the multi-repo fetch yields exactly `rB`'s commits. -/
theorem failure_isolation_witness :
    fetchRepoCommits "o5" "rA"
      ((fun r _ => if r = "rA" then (⟨500, [], false⟩ : PageResp)
        else ⟨200, [⟨"c1", "m", "a", "e", 0, "u"⟩, ⟨"c2", "m", "a", "e", 1, "u"⟩], false⟩) "rA") =
      .error "GitHub API error: 500" ∧
    fetchAllCommits ["rA", "rB"] "o5"
      (fun r _ => if r = "rA" then (⟨500, [], false⟩ : PageResp)
        else ⟨200, [⟨"c1", "m", "a", "e", 0, "u"⟩, ⟨"c2", "m", "a", "e", 1, "u"⟩], false⟩) =
      [withRepo "o5" "rB" ⟨"c1", "m", "a", "e", 0, "u"⟩,
       withRepo "o5" "rB" ⟨"c2", "m", "a", "e", 1, "u"⟩] := by
  refine ⟨by rfl, ?_⟩
  have h := (failure_isolation ["rA", "rB"] "o5"
    (fun r _ => if r = "rA" then (⟨500, [], false⟩ : PageResp)
      else ⟨200, [⟨"c1", "m", "a", "e", 0, "u"⟩, ⟨"c2", "m", "a", "e", 1, "u"⟩], false⟩)
    "rA" "GitHub API error: 500" (by rfl)).2
  rw [h]
  rfl

/-! ## Cache Layer (`getCachedData` / `setCachedData`, lines 308-351) -/

/-- The stored cache value `{ data, expires }` (`expires` in epoch ms). -/
structure CacheEntry (α : Type) where
  data : α
  expires : Int
deriving DecidableEq

/-- The KV namespace as seen by one `get`: for each key either a store
error, or `null`, or a parsed entry. -/
def KvStore (α : Type) := String → Except Unit (Option (CacheEntry α))

/-- `getCachedData` (lines 322-332): return the entry's data when it is
present and `cached.expires > Date.now()`; treat `null`, expired entries
and store errors alike as a miss (`null`). -/
def getCachedData {α : Type} (store : KvStore α) (now : Int) (key : String) : Option α :=
  match store key with
  | .error _ => none
  | .ok none => none
  | .ok (some e) => if e.expires > now then some e.data else none

/-- Default TTL (line 8): one hour in seconds. -/
def CACHE_TTL : Nat := 3600

/-- The entry written by `setCachedData` (lines 341-351):
`{ data, expires: Date.now() + ttl * 1000 }`. -/
def setCachedData {α : Type} (now : Int) (data : α) (ttl : Int) : CacheEntry α :=
  { data := data, expires := now + ttl * 1000 }

/-- The store after a successful `put` of `e` under `key`. -/
def putEntry {α : Type} (store : KvStore α) (key : String) (e : CacheEntry α) : KvStore α :=
  fun k => if k = key then .ok (some e) else store k

/-- **C6.**  A `set(key, value, ttl)` followed by a `get(key)` strictly
before the stored expiry (set time + `ttl` seconds, stored in ms) returns
the stored value; a `get` at or after the expiry is a miss; and a store
error during `get` is treated as a miss rather than propagated. -/
theorem cache_get_set (α : Type) (store : KvStore α) (key : String) (v : α)
    (ttl : Int) (tset tget : Int) :
    (tget < tset + ttl * 1000 →
      getCachedData (putEntry store key (setCachedData tset v ttl)) tget key = some v) ∧
    (tset + ttl * 1000 ≤ tget →
      getCachedData (putEntry store key (setCachedData tset v ttl)) tget key = none) ∧
    (∀ (store' : KvStore α) (k : String) (now : Int),
      store' k = .error () → getCachedData store' now k = none) := by
  refine ⟨?_, ?_, ?_⟩
  · intro h
    unfold getCachedData putEntry setCachedData
    rw [if_pos rfl]
    simp only
    rw [if_pos (by omega)]
  · intro h
    unfold getCachedData putEntry setCachedData
    rw [if_pos rfl]
    simp only
    rw [if_neg (by omega)]
  · intro store' k now h
    unfold getCachedData
    rw [h]

/-- Witness for C6: a concrete set/get pair around the expiry, and a
concrete erroring store. -/
theorem cache_get_set_witness :
    ((1000 : Int) < 0 + 3600 * 1000 ∧
      getCachedData (putEntry (fun _ => .ok none) "k" (setCachedData 0 (42 : Nat) 3600))
        1000 "k" = some 42) ∧
    ((0 : Int) + 3600 * 1000 ≤ 3600000 ∧
      getCachedData (putEntry (fun _ => .ok none) "k" (setCachedData 0 (42 : Nat) 3600))
        3600000 "k" = none) ∧
    ((fun _ => (.error () : Except Unit (Option (CacheEntry Nat)))) "k" = .error () ∧
      getCachedData (α := Nat) (fun _ => .error ()) 5 "k" = none) :=
  ⟨⟨by omega, (cache_get_set Nat (fun _ => .ok none) "k" 42 3600 0 1000).1 (by omega)⟩,
   ⟨by omega, (cache_get_set Nat (fun _ => .ok none) "k" 42 3600 0 3600000).2.1 (by omega)⟩,
   ⟨rfl, (cache_get_set Nat (fun _ => .ok none) "k" 42 3600 0 0).2.2 (fun _ => .error ()) "k" 5 rfl⟩⟩

/-! ## Query Orchestrator (`handleGetCommits`; template variant) -/

/-- JS `haystack.includes(needle)`: substring containment. -/
def containsSub (h n : String) : Bool := decide (n.toList <:+: h.toList)

/-- The search filter (lines 637-644): case-insensitive substring match
over message, author name and repo name. -/
def searchFilter (searchTerm : Option String) (cs : List RawCommit) : List RawCommit :=
  match searchTerm with
  | none => cs
  | some s =>
    cs.filter (fun c =>
      containsSub c.message.toLower s.toLower ||
      containsSub c.authorName.toLower s.toLower ||
      containsSub c.repo.toLower s.toLower)

/-- The query parameters the compute path reads (the date window only
selects what upstream returns, which is abstracted into the fetched list). -/
structure QueryParams where
  groupBy : String
  sortBy : String
  sortOrder : String
  search : Option String
deriving DecidableEq

/-- The response payload (lines 712-727).  The echoed `dateRange`/`filters`
blocks are not embedded; no claim mentions them. -/
structure ResponsePayload where
  groups : List GroupOut
  totalCommits : Nat
  totalGroups : Nat
deriving DecidableEq

/-- The compute path of `handleGetCommits` after fetching (lines 636-730):
search filter, sort, group, shape, and the TTL chosen for the cache write
(`commits.length > 500 ? 1800 : CACHE_TTL`, line 730).  Returns the payload
together with that TTL (in seconds). -/
def buildResponse (q : QueryParams) (commits : List RawCommit) : ResponsePayload × Nat :=
  let filtered := searchFilter q.search commits
  let sorted := sortCommits q.sortBy q.sortOrder filtered
  let fg := formattedGroups q.groupBy q.sortOrder (groupsFor q.groupBy sorted)
  ({ groups := fg, totalCommits := sorted.length, totalGroups := fg.length },
   if sorted.length > 500 then 1800 else CACHE_TTL)

/-- **C8.**  A successful query caches its response with TTL 1800 s exactly
when the filtered result set — which is also the payload's `totalCommits` —
exceeds 500 commits, and with the default TTL 3600 s otherwise. -/
theorem cache_ttl_rule (q : QueryParams) (cs : List RawCommit) :
    (buildResponse q cs).1.totalCommits = (searchFilter q.search cs).length ∧
    ((buildResponse q cs).1.totalCommits > 500 → (buildResponse q cs).2 = 1800) ∧
    ((buildResponse q cs).1.totalCommits ≤ 500 →
      (buildResponse q cs).2 = 3600 ∧ (buildResponse q cs).2 = CACHE_TTL) := by
  have hlen : (sortCommits q.sortBy q.sortOrder (searchFilter q.search cs)).length =
      (searchFilter q.search cs).length :=
    (sortCommits_perm _ _ _).length_eq
  refine ⟨?_, ?_, ?_⟩
  · show (sortCommits q.sortBy q.sortOrder (searchFilter q.search cs)).length = _
    exact hlen
  · intro h
    have h' : (sortCommits q.sortBy q.sortOrder (searchFilter q.search cs)).length > 500 := h
    show (if (sortCommits q.sortBy q.sortOrder (searchFilter q.search cs)).length > 500
      then 1800 else CACHE_TTL) = 1800
    rw [if_pos h']
  · intro h
    have h' : (sortCommits q.sortBy q.sortOrder (searchFilter q.search cs)).length ≤ 500 := h
    constructor
    · show (if (sortCommits q.sortBy q.sortOrder (searchFilter q.search cs)).length > 500
        then 1800 else CACHE_TTL) = 3600
      rw [if_neg (by omega)]
      rfl
    · show (if (sortCommits q.sortBy q.sortOrder (searchFilter q.search cs)).length > 500
        then 1800 else CACHE_TTL) = CACHE_TTL
      rw [if_neg (by omega)]

/-- Witness for C8: an empty commit list has `totalCommits = 0 ≤ 500` and
is cached with the default TTL. -/
theorem cache_ttl_rule_witness :
    ((buildResponse ⟨"week", "date", "asc", none⟩ []).1.totalCommits > 500 →
      (buildResponse ⟨"week", "date", "asc", none⟩ []).2 = 1800) ∧
    ((buildResponse ⟨"week", "date", "asc", none⟩ []).1.totalCommits ≤ 500 ∧
      (buildResponse ⟨"week", "date", "asc", none⟩ []).2 = 3600) :=
  ⟨(cache_ttl_rule ⟨"week", "date", "asc", none⟩ []).2.1,
   ⟨by simp [buildResponse, sortCommits, searchFilter],
    ((cache_ttl_rule ⟨"week", "date", "asc", none⟩ []).2.2
      (by simp [buildResponse, sortCommits, searchFilter])).1⟩⟩

theorem buildResponse_nil (q : QueryParams) :
    buildResponse q [] = ({ groups := [], totalCommits := 0, totalGroups := 0 }, 3600) := by
  obtain ⟨key, hkey⟩ := groupsFor_eq q.groupBy
  have hsf : searchFilter q.search [] = [] := by
    unfold searchFilter
    cases q.search <;> rfl
  have hsc : sortCommits q.sortBy q.sortOrder [] = [] := List.mergeSort_nil
  have hg : groupsFor q.groupBy [] = [] := by rw [hkey]; rfl
  have hek : emittedKeys q.sortOrder ([] : List (String × List RawCommit)) = [] := by
    unfold emittedKeys sortStrings
    split <;> simp
  unfold buildResponse
  dsimp only
  rw [hsf, hsc, hg]
  unfold formattedGroups
  rw [hek]
  rfl

/-- The results a request can produce in the model of the template
`handleGetCommits`. -/
inductive WorkerResult where
  | cached (p : ResponsePayload)
  | errNoToken
  | errNoRepos
  | success (p : ResponsePayload) (ttl : Nat)
deriving DecidableEq

/-- Template `handleGetCommits` (template lines 870-1046), modelled from
the cache lookup to the response shaping: a cache hit returns the cached
payload; a missing token yields the 401 error; an empty configured
repository list yields the 400 "No repositories selected" error — checked
BEFORE the request's repo filter is intersected and before any upstream
fetch; otherwise the configured list is intersected with the filter
(`filterList.includes(r)`), fetched and shaped by the same pipeline as the
worker variant. -/
def handleGetCommitsT (cached : Option ResponsePayload) (token : Option String)
    (configRepos : List String) (repoFilter : Option (List String)) (q : QueryParams)
    (org : String) (pagesOf : String → Nat → PageResp) : WorkerResult :=
  match cached with
  | some p => .cached p
  | none =>
    match token with
    | none => .errNoToken
    | some _ =>
      if configRepos.length = 0 then .errNoRepos
      else
        let reposToFetch := match repoFilter with
          | none => configRepos
          | some fl => configRepos.filter (fun r => decide (r ∈ fl))
        let pr := buildResponse q (fetchAllCommitsT reposToFetch org pagesOf)
        .success pr.1 pr.2

/-- **C9.**  A query by a tenant whose configured repository list is empty
fails with the distinct "no repositories configured" error, for every
possible upstream (no fetch can influence the outcome, since the check
precedes any fetch), and that error is distinguishable from every
successful result, in particular from a success with zero commits. -/
theorem no_repos_configured_error (token : String) (repoFilter : Option (List String))
    (q : QueryParams) (org : String) (pagesOf : String → Nat → PageResp) :
    handleGetCommitsT none (some token) [] repoFilter q org pagesOf =
      WorkerResult.errNoRepos ∧
    (∀ p ttl, WorkerResult.errNoRepos ≠ WorkerResult.success p ttl) := by
  constructor
  · rfl
  · intro p ttl h
    exact WorkerResult.noConfusion h

/-- Witness for C9 at concrete arguments, including the distinctness from
the zero-commit success payload. -/
theorem no_repos_configured_error_witness :
    handleGetCommitsT none (some "tok") [] none ⟨"week", "date", "desc", none⟩ "org9"
      (fun _ _ => ⟨200, [], false⟩) = WorkerResult.errNoRepos ∧
    WorkerResult.errNoRepos ≠
      WorkerResult.success { groups := [], totalCommits := 0, totalGroups := 0 } 3600 :=
  ⟨(no_repos_configured_error "tok" none ⟨"week", "date", "desc", none⟩ "org9"
      (fun _ _ => ⟨200, [], false⟩)).1,
   (no_repos_configured_error "tok" none ⟨"week", "date", "desc", none⟩ "org9"
      (fun _ _ => ⟨200, [], false⟩)).2
      { groups := [], totalCommits := 0, totalGroups := 0 } 3600⟩

/-- **C10.**  When the tenant's configured list is non-empty but the repo
filter matches none of it, the handler does NOT raise the "no repositories
configured" error (that check runs before the intersection): the request
proceeds with an empty fetch list and returns a normal success payload with
`totalCommits = 0` and no groups (cached with the default TTL). -/
theorem filter_mismatch_zero_commits (token org : String) (config fl : List String)
    (q : QueryParams) (pagesOf : String → Nat → PageResp)
    (hne : config ≠ []) (hdisj : ∀ r ∈ config, r ∉ fl) :
    handleGetCommitsT none (some token) config (some fl) q org pagesOf =
      WorkerResult.success { groups := [], totalCommits := 0, totalGroups := 0 } 3600 := by
  have hlen : ¬ (config.length = 0) := by
    cases config with
    | nil => exact absurd rfl hne
    | cons a l => simp
  have hrf : config.filter (fun r => decide (r ∈ fl)) = [] := by
    rw [List.filter_eq_nil_iff]
    intro r hr
    simpa using hdisj r hr
  show (if config.length = 0 then WorkerResult.errNoRepos
    else
      let reposToFetch := config.filter (fun r => decide (r ∈ fl))
      let pr := buildResponse q (fetchAllCommitsT reposToFetch org pagesOf)
      WorkerResult.success pr.1 pr.2) = _
  rw [if_neg hlen]
  simp only
  rw [hrf]
  rw [show fetchAllCommitsT [] org pagesOf = [] from rfl]
  rw [buildResponse_nil]

/-- Witness for C10: one configured repo, a filter naming a different repo. -/
theorem filter_mismatch_zero_commits_witness :
    (["repo1"] ≠ ([] : List String) ∧ (∀ r ∈ ["repo1"], r ∉ ["other"])) ∧
    handleGetCommitsT none (some "tok") ["repo1"] (some ["other"])
      ⟨"week", "date", "desc", none⟩ "org10" (fun _ _ => ⟨200, [], false⟩) =
      WorkerResult.success { groups := [], totalCommits := 0, totalGroups := 0 } 3600 :=
  ⟨⟨by decide, by decide⟩,
   filter_mismatch_zero_commits "tok" "org10" ["repo1"] ["other"]
     ⟨"week", "date", "desc", none⟩ (fun _ _ => ⟨200, [], false⟩) (by decide) (by decide)⟩

/-- Witness for C1: the exactly-one-bucket clause applied to a concrete
one-commit input. -/
theorem partition_invariant_witness :
    (sampleCommit "w1" "r" 0) ∈ [sampleCommit "w1" "r" 0] ∧
    (emittedBuckets "day" "asc" [sampleCommit "w1" "r" 0]).countP
      (fun b => decide ((sampleCommit "w1" "r" 0) ∈ b)) = 1 :=
  ⟨List.mem_cons_self _ _,
   (partition_invariant "day" "asc" [sampleCommit "w1" "r" 0]).2.2.1 _
     (List.mem_cons_self _ _)⟩
